import Mathlib

/-!
Verification of the compressed FM-index core (bitvectors, learned bitvector,
wavelet tree, FM-index backward search and locate, vEB layout, serialization)
against its natural-language specification.

The C++ sources are shallowly embedded: each C++ function becomes an
executable Lean definition over `Nat` / `List Nat` / `List Bool`, with
machine-integer truncations written as explicit `% 2 ^ w` where the stored
field is narrower than the values that could reach it.  Imperative loops are
translated either as structural recursions or as closed forms of the loop's
accumulator; the correspondence is noted at each definition.
-/

namespace CSpec

/-! ### Bit-level foundations

The C++ code packs bits LSB-first into 64-bit words
(`bits_[i/64] |= 1ULL << (i%64)`) and counts bits with a hardware popcount.
-/

/-- Value of a bit list read LSB-first (bit `k` of the result is entry `k`). -/
def bitsToNat : List Bool → Nat
  | [] => 0
  | b :: t => (if b then 1 else 0) + 2 * bitsToNat t

/-- Popcount of a 64-bit word (the `popcount64` intrinsic wrapper). -/
def popcount64 (x : Nat) : Nat :=
  (List.range 64).countP (fun k => x.testBit k)

/-- The 64-bit word holding bits `[64*w, 64*w+64)` of the packed bitvector;
bits beyond the end of the list are zero. -/
def wordOf (bits : List Bool) (w : Nat) : Nat :=
  bitsToNat ((bits.drop (64 * w)).take 64)

/-- Number of 64-bit words allocated for `nbits` bits: `(nbits + 63) / 64`. -/
def numWords (nbits : Nat) : Nat := (nbits + 63) / 64

/-- The packed word array built by the bit-packing loop shared by
`BitVector::build` and `BitvectorLearned::build`. -/
def packWords (bits : List Bool) : List Nat :=
  (List.range (numWords bits.length)).map (wordOf bits)

/-- Reference rank: number of set bits among the first `i` entries. -/
def naiveRank (bits : List Bool) (i : Nat) : Nat :=
  (bits.take i).countP (fun b => b)

/-- Number of set bits at positions `[a, b)` (positions past the end count 0). -/
def rangeCount (bits : List Bool) (a b : Nat) : Nat :=
  (List.range' a (b - a)).countP (fun p => bits.getD p false)

theorem bitsToNat_lt (l : List Bool) : bitsToNat l < 2 ^ l.length := by
  induction l with
  | nil => simp [bitsToNat]
  | cons b t ih =>
      have h2 : (2 : Nat) ^ (b :: t).length = 2 * 2 ^ t.length := by
        rw [List.length_cons, pow_succ]
        ring
      cases b <;> simp [bitsToNat, h2] <;> omega

theorem testBit_bitsToNat (l : List Bool) (k : Nat) :
    (bitsToNat l).testBit k = l.getD k false := by
  induction l generalizing k with
  | nil => simp [bitsToNat, Nat.testBit]
  | cons b t ih =>
      cases k with
      | zero =>
          cases b <;> simp [bitsToNat, Nat.testBit_zero, Nat.add_mul_mod_self_left]
      | succ k =>
          have h2 : bitsToNat (b :: t) / 2 = bitsToNat t := by
            cases b <;> simp [bitsToNat] <;> omega
          rw [Nat.testBit_succ, h2, ih]
          rfl

theorem wordOf_testBit (bits : List Bool) (w k : Nat) (hk : k < 64) :
    (wordOf bits w).testBit k = bits.getD (64 * w + k) false := by
  rw [wordOf, testBit_bitsToNat]
  rw [List.getD_eq_getElem?_getD, List.getD_eq_getElem?_getD]
  rw [List.getElem?_take, if_pos hk, List.getElem?_drop]

theorem wordOf_lt (bits : List Bool) (w : Nat) : wordOf bits w < 2 ^ 64 := by
  have h := bitsToNat_lt ((bits.drop (64 * w)).take 64)
  have hlen : ((bits.drop (64 * w)).take 64).length ≤ 64 := by
    simp [List.length_take]
  calc wordOf bits w < 2 ^ ((bits.drop (64 * w)).take 64).length := h
    _ ≤ 2 ^ 64 := Nat.pow_le_pow_right (by norm_num) hlen

/-- A single word's popcount, with bits restricted to window `[a, b)`. -/
def windowPop (bits : List Bool) (w a b : Nat) : Nat :=
  (List.range 64).countP
    (fun k => bits.getD (64 * w + k) false && decide (a ≤ 64 * w + k) && decide (64 * w + k < b))

theorem rangeCount_eq_countP (bits : List Bool) (a c : Nat) :
    ((bits.drop a).take c).countP (fun b => b) =
      (List.range' a c).countP (fun p => bits.getD p false) := by
  induction c generalizing a with
  | zero => simp
  | succ c ih =>
      rcases Nat.lt_or_ge a bits.length with h | h
      · have hdrop : bits.drop a = bits.getD a false :: bits.drop (a + 1) := by
          rw [List.getD_eq_getElem bits false h]
          exact List.drop_eq_getElem_cons h
        rw [hdrop, List.take_succ_cons, List.countP_cons, List.range'_succ,
          List.countP_cons, ih]
      · have hdrop : bits.drop a = [] := List.drop_eq_nil_of_le h
        rw [hdrop]
        simp only [List.take_nil, List.countP_nil]
        symm
        rw [List.countP_eq_zero]
        intro p hp
        rw [List.mem_range'] at hp
        obtain ⟨t, ht, rfl⟩ := hp
        have hd : bits.getD (a + 1 * t) false = false :=
          List.getD_eq_default _ _ (by omega)
        rw [List.getD_eq_getElem?_getD] at hd
        simpa using hd

theorem naiveRank_take_eq (bits : List Bool) (i : Nat) :
    naiveRank bits i = rangeCount bits 0 i := by
  rw [naiveRank, rangeCount, ← rangeCount_eq_countP]
  simp

theorem rangeCount_split (bits : List Bool) (a m b : Nat) (h1 : a ≤ m) (h2 : m ≤ b) :
    rangeCount bits a b = rangeCount bits a m + rangeCount bits m b := by
  have e1 : b - a = (b - m) + (m - a) := by omega
  have happ := List.range'_append a (m - a) (b - m) 1
  rw [show a + 1 * (m - a) = m by omega] at happ
  rw [rangeCount, rangeCount, rangeCount, e1, ← happ, List.countP_append]

theorem rangeCount_zero (bits : List Bool) (a b : Nat) (h : b ≤ a) :
    rangeCount bits a b = 0 := by
  rw [rangeCount]
  have : b - a = 0 := by omega
  simp [this]

theorem naiveRank_split (bits : List Bool) (a b : Nat) (h : a ≤ b) :
    naiveRank bits b = naiveRank bits a + rangeCount bits a b := by
  rw [naiveRank_take_eq, naiveRank_take_eq]
  exact rangeCount_split bits 0 a b (by omega) h

theorem countP_range'_shift (n : Nat) : ∀ (s : Nat) (f : Nat → Bool),
    (List.range' s n).countP f = (List.range n).countP (fun k => f (s + k)) := by
  induction n with
  | zero => simp
  | succ n ih =>
      intro s f
      rw [List.range'_succ, List.countP_cons, List.range_succ_eq_map,
        List.countP_cons, List.countP_map, ih (s + 1) f]
      have he : ((fun k => f (s + k)) ∘ Nat.succ) = (fun k => f (s + 1 + k)) := by
        funext k
        simp only [Function.comp, Nat.succ_eq_add_one]
        rw [show s + (k + 1) = s + 1 + k by omega]
      rw [he]
      simp

theorem countP_range_window (N lo hi : Nat) (g : Nat → Bool) (hhi : hi ≤ N) :
    (List.range N).countP (fun k => g k && decide (lo ≤ k) && decide (k < hi)) =
      (List.range' lo (hi - lo)).countP g := by
  rcases le_or_lt lo hi with hl | hl
  · have eA : List.range' 0 lo ++ List.range' lo (hi - lo) = List.range' 0 hi := by
      have h := List.range'_append 0 lo (hi - lo) 1
      rw [show 0 + 1 * lo = lo by omega] at h
      rw [h, show (hi - lo) + lo = hi by omega]
    have eB : List.range' 0 hi ++ List.range' hi (N - hi) = List.range' 0 N := by
      have h := List.range'_append 0 hi (N - hi) 1
      rw [show 0 + 1 * hi = hi by omega] at h
      rw [h, show (N - hi) + hi = N by omega]
    rw [List.range_eq_range', ← eB, ← eA, List.countP_append, List.countP_append]
    have p1 : (List.range' 0 lo).countP
        (fun k => g k && decide (lo ≤ k) && decide (k < hi)) = 0 := by
      rw [List.countP_eq_zero]
      intro k hk
      rw [List.mem_range'] at hk
      obtain ⟨t, ht, rfl⟩ := hk
      simp only [Bool.and_eq_true, decide_eq_true_eq, not_and]
      intro h1 h2
      omega
    have p3 : (List.range' hi (N - hi)).countP
        (fun k => g k && decide (lo ≤ k) && decide (k < hi)) = 0 := by
      rw [List.countP_eq_zero]
      intro k hk
      rw [List.mem_range'] at hk
      obtain ⟨t, ht, rfl⟩ := hk
      simp only [Bool.and_eq_true, decide_eq_true_eq, not_and]
      intro h1 h2
      omega
    have p2 : (List.range' lo (hi - lo)).countP
        (fun k => g k && decide (lo ≤ k) && decide (k < hi)) =
        (List.range' lo (hi - lo)).countP g := by
      apply List.countP_congr
      intro k hk
      rw [List.mem_range'] at hk
      obtain ⟨t, ht, rfl⟩ := hk
      simp only [Bool.and_eq_true, decide_eq_true_eq]
      constructor
      · exact fun h => h.1.1
      · intro h
        exact ⟨⟨h, by omega⟩, by omega⟩
    rw [p1, p3, p2]
    omega
  · have e0 : hi - lo = 0 := by omega
    rw [e0]
    simp only [List.range'_zero, List.countP_nil]
    rw [List.countP_eq_zero]
    intro k hk
    simp only [Bool.and_eq_true, decide_eq_true_eq, not_and]
    intro h1 h2
    omega

theorem windowPop_single (bits : List Bool) (w a b : Nat)
    (ha : 64 * w ≤ a) (hb : b ≤ 64 * w + 64) :
    windowPop bits w a b = rangeCount bits a b := by
  rcases le_or_lt a b with hab | hab
  · rw [windowPop]
    have h1 : (List.range 64).countP
        (fun k => bits.getD (64 * w + k) false && decide (a ≤ 64 * w + k) &&
          decide (64 * w + k < b)) =
        (List.range 64).countP
        (fun k => (fun j => bits.getD (64 * w + j) false) k &&
          decide (a - 64 * w ≤ k) && decide (k < b - 64 * w)) := by
      apply List.countP_congr
      intro k hk
      rw [List.mem_range] at hk
      simp only [Bool.and_eq_true, decide_eq_true_eq]
      constructor
      · rintro ⟨⟨hg, h2⟩, h3⟩
        exact ⟨⟨hg, by omega⟩, by omega⟩
      · rintro ⟨⟨hg, h2⟩, h3⟩
        exact ⟨⟨hg, by omega⟩, by omega⟩
    rw [h1, countP_range_window 64 (a - 64 * w) (b - 64 * w) _ (by omega)]
    rw [rangeCount, countP_range'_shift, countP_range'_shift]
    rw [show b - 64 * w - (a - 64 * w) = b - a by omega]
    apply List.countP_congr
    intro k hk
    rw [show 64 * w + (a - 64 * w + k) = a + k by omega]
  · rw [rangeCount_zero bits a b (by omega), windowPop, List.countP_eq_zero]
    intro k hk
    simp only [Bool.and_eq_true, decide_eq_true_eq, not_and]
    intro h1 h2
    omega

/-- Summing windowed popcounts over the covering words yields the range count. -/
theorem windowPop_sum (bits : List Bool) : ∀ (cnt wa a b : Nat),
    64 * wa ≤ a → b ≤ 64 * (wa + cnt) →
    ((List.range' wa cnt).map (fun w => windowPop bits w a b)).sum = rangeCount bits a b := by
  intro cnt
  induction cnt with
  | zero =>
      intro wa a b ha hb
      simp only [List.range'_zero, List.map_nil, List.sum_nil]
      rw [rangeCount_zero]
      omega
  | succ cnt ih =>
      intro wa a b ha hb
      rw [List.range'_succ, List.map_cons, List.sum_cons]
      rcases Nat.lt_or_ge a (64 * (wa + 1)) with ham | ham
      · rcases le_or_lt b (64 * (wa + 1)) with hbm | hbm
        · have h1 : windowPop bits wa a b = rangeCount bits a b :=
            windowPop_single bits wa a b ha (by omega)
          have h2 : ((List.range' (wa + 1) cnt).map (fun w => windowPop bits w a b)).sum = 0 := by
            rw [List.sum_eq_zero]
            intro x hx
            rw [List.mem_map] at hx
            obtain ⟨w, hw, hxe⟩ := hx
            rw [List.mem_range'] at hw
            obtain ⟨t, ht, rfl⟩ := hw
            rw [← hxe, windowPop, List.countP_eq_zero.mpr]
            intro k hk
            rw [List.mem_range] at hk
            simp only [Bool.and_eq_true, decide_eq_true_eq, not_and]
            intro h1 h2
            omega
          rw [h1, h2]
          omega
        · rcases le_or_lt a b with hab | hab
          · have h1 : windowPop bits wa a b = rangeCount bits a (64 * (wa + 1)) := by
              rw [← windowPop_single bits wa a (64 * (wa + 1)) ha (by omega)]
              rw [windowPop, windowPop]
              apply List.countP_congr
              intro k hk
              rw [List.mem_range] at hk
              simp only [Bool.and_eq_true, decide_eq_true_eq]
              constructor
              · rintro ⟨⟨hg, h2⟩, h3⟩
                exact ⟨⟨hg, h2⟩, by omega⟩
              · rintro ⟨⟨hg, h2⟩, h3⟩
                exact ⟨⟨hg, h2⟩, by omega⟩
            have h2 := ih (wa + 1) (64 * (wa + 1)) b (by omega) (by omega)
            have h3 : (List.map (fun w => windowPop bits w a b) (List.range' (wa + 1) cnt)).sum =
                (List.map (fun w => windowPop bits w (64 * (wa + 1)) b)
                  (List.range' (wa + 1) cnt)).sum := by
              congr 1
              apply List.map_congr_left
              intro w hw
              rw [List.mem_range'] at hw
              obtain ⟨t, ht, rfl⟩ := hw
              rw [windowPop, windowPop]
              apply List.countP_congr
              intro k hk
              simp only [Bool.and_eq_true, decide_eq_true_eq]
              constructor
              · rintro ⟨⟨hg, hx⟩, hy⟩
                exact ⟨⟨hg, by omega⟩, hy⟩
              · rintro ⟨⟨hg, hx⟩, hy⟩
                exact ⟨⟨hg, by omega⟩, hy⟩
            rw [h1, h3, h2, ← rangeCount_split bits a (64 * (wa + 1)) b (by omega) (by omega)]
          · rw [rangeCount_zero bits a b (by omega)]
            have h1 : windowPop bits wa a b = 0 := by
              rw [windowPop, List.countP_eq_zero]
              intro k hk
              simp only [Bool.and_eq_true, decide_eq_true_eq, not_and]
              intro hg h2
              omega
            have h2 : ((List.range' (wa + 1) cnt).map (fun w => windowPop bits w a b)).sum = 0 := by
              rw [List.sum_eq_zero]
              intro x hx
              rw [List.mem_map] at hx
              obtain ⟨w, hw, hxe⟩ := hx
              rw [← hxe, windowPop, List.countP_eq_zero.mpr]
              intro k hk
              simp only [Bool.and_eq_true, decide_eq_true_eq, not_and]
              intro hg hh
              omega
            rw [h1, h2]
      · have h1 : windowPop bits wa a b = 0 := by
          rw [windowPop, List.countP_eq_zero]
          intro k hk
          rw [List.mem_range] at hk
          simp only [Bool.and_eq_true, decide_eq_true_eq, not_and]
          intro hg h2
          omega
        rw [h1, Nat.zero_add]
        exact ih (wa + 1) a b (by omega) (by omega)

/-! ### Word masks

The C++ loops clear bits outside the current window with
`word &= ~0ULL << trim_low`, `word &= ~0ULL >> trim_high` and
`word &= (1ULL << keep_bits) - 1`.
-/

theorem testBit_maskLow (t k : Nat) (hk : k < 64) :
    ((((2 : Nat) ^ 64 - 1) <<< t) % 2 ^ 64).testBit k = decide (t ≤ k) := by
  rw [Nat.testBit_mod_two_pow, Nat.testBit_shiftLeft, Nat.testBit_two_pow_sub_one]
  have h1 : decide (k < 64) = true := by
    simp [hk]
  have h2 : decide (k - t < 64) = true := by
    rw [decide_eq_true_eq]
    omega
  rw [h1, h2, Bool.and_true, Bool.true_and, decide_eq_decide]

theorem testBit_maskHighTrim (t k : Nat) :
    (((2 : Nat) ^ 64 - 1) >>> t).testBit k = decide (t + k < 64) := by
  rw [Nat.testBit_shiftRight, Nat.testBit_two_pow_sub_one]

/-- One word of a masked popcount loop in `BitVector::build`: keep only the
bits of word `w` falling in `[a, b)`, with both masks applied conditionally
exactly as in the source. -/
def maskedWord (word w a b : Nat) : Nat :=
  if 64 * w + 64 > b
  then (if 64 * w < a then word &&& (((2 ^ 64 - 1) <<< (a - 64 * w)) % 2 ^ 64) else word) &&&
    ((2 ^ 64 - 1) >>> (64 * w + 64 - b))
  else (if 64 * w < a then word &&& (((2 ^ 64 - 1) <<< (a - 64 * w)) % 2 ^ 64) else word)

/-- One word of the tail popcount loops in `BitVector::rank1` and
`BitvectorLearned::rank1`: the high mask is `(1ULL << keep_bits) - 1`,
applied when the word overruns the window and `keep_bits < 64`. -/
def maskedWordKeep (word w a b : Nat) : Nat :=
  if 64 * w + 64 > b ∧ b - 64 * w < 64
  then (if 64 * w < a then word &&& (((2 ^ 64 - 1) <<< (a - 64 * w)) % 2 ^ 64) else word) &&&
    (2 ^ (b - 64 * w) - 1)
  else (if 64 * w < a then word &&& (((2 ^ 64 - 1) <<< (a - 64 * w)) % 2 ^ 64) else word)

theorem testBit_lowIf (word w a k : Nat) (hk : k < 64) :
    ((if 64 * w < a then word &&& (((2 ^ 64 - 1) <<< (a - 64 * w)) % 2 ^ 64) else word) :
      Nat).testBit k = (word.testBit k && decide (a ≤ 64 * w + k)) := by
  by_cases c1 : 64 * w < a
  · rw [if_pos c1, Nat.testBit_land, testBit_maskLow _ _ hk]
    cases hW : word.testBit k
    · simp
    · simp only [Bool.true_and]
      rw [decide_eq_decide]
      omega
  · rw [if_neg c1]
    have h1 : a ≤ 64 * w + k := by omega
    simp [h1]

theorem testBit_maskedWord (word w a b k : Nat) (hk : k < 64) :
    (maskedWord word w a b).testBit k =
      (word.testBit k && decide (a ≤ 64 * w + k) && decide (64 * w + k < b)) := by
  rw [maskedWord]
  by_cases c2 : 64 * w + 64 > b
  · rw [if_pos c2, Nat.testBit_land, testBit_lowIf _ _ _ _ hk, testBit_maskHighTrim]
    congr 1
    rw [decide_eq_decide]
    omega
  · rw [if_neg c2, testBit_lowIf _ _ _ _ hk]
    have h2 : 64 * w + k < b := by omega
    simp [h2]

theorem testBit_maskedWordKeep (word w a b k : Nat) (hk : k < 64) :
    (maskedWordKeep word w a b).testBit k =
      (word.testBit k && decide (a ≤ 64 * w + k) && decide (64 * w + k < b)) := by
  rw [maskedWordKeep]
  by_cases c2 : 64 * w + 64 > b
  · rw [if_pos (⟨c2, by omega⟩ : 64 * w + 64 > b ∧ b - 64 * w < 64)]
    rw [Nat.testBit_land, testBit_lowIf _ _ _ _ hk, Nat.testBit_two_pow_sub_one]
    congr 1
    rw [decide_eq_decide]
    omega
  · rw [if_neg (fun h => c2 h.1), testBit_lowIf _ _ _ _ hk]
    have h2 : 64 * w + k < b := by omega
    simp [h2]

theorem popcount64_masked_eq_windowPop (bits : List Bool) (w a b : Nat) :
    popcount64 (maskedWord (wordOf bits w) w a b) = windowPop bits w a b := by
  rw [popcount64, windowPop]
  apply List.countP_congr
  intro k hk
  rw [List.mem_range] at hk
  rw [testBit_maskedWord _ _ _ _ _ hk, wordOf_testBit _ _ _ hk]

theorem popcount64_maskedKeep_eq_windowPop (bits : List Bool) (w a b : Nat) :
    popcount64 (maskedWordKeep (wordOf bits w) w a b) = windowPop bits w a b := by
  rw [popcount64, windowPop]
  apply List.countP_congr
  intro k hk
  rw [List.mem_range] at hk
  rw [testBit_maskedWordKeep _ _ _ _ _ hk, wordOf_testBit _ _ _ hk]

/-! ### BitVector (two-level sampled rank, `bitvector.cpp`)

`CS_SUPER_BLOCK_SIZE = 2048`, `CS_SUB_BLOCK_SIZE = 256` (`config.hpp`).
-/

/-- Number of super-blocks: `(nbits + SUPER - 1) / SUPER`. -/
def numSupers (nbits : Nat) : Nat := (nbits + 2047) / 2048

/-- Number of sub-blocks: `(nbits + SUB - 1) / SUB`. -/
def numSubs (nbits : Nat) : Nat := (nbits + 255) / 256

/-- End of sub-block `t`: `min(sub_start + SUB, super_end)`; a sub-block never
crosses its super-block, so this is `min(sub_start + 256, nbits)`. -/
def subEnd (nbits t : Nat) : Nat := min (256 * t + 256) nbits

/-- The masked word-loop popcount over one sub-block `[a, b)` — the inner
word loop of `BitVector::build`. -/
def subPop (bits : List Bool) (a b : Nat) : Nat :=
  ((List.range' (a / 64) ((b + 63) / 64 - a / 64)).map
    (fun w => popcount64 (maskedWord (wordOf bits w) w a b))).sum

theorem subPop_eq_rangeCount (bits : List Bool) (a b : Nat) :
    subPop bits a b = rangeCount bits a b := by
  rw [subPop]
  have hmap : (List.range' (a / 64) ((b + 63) / 64 - a / 64)).map
      (fun w => popcount64 (maskedWord (wordOf bits w) w a b)) =
      (List.range' (a / 64) ((b + 63) / 64 - a / 64)).map
      (fun w => windowPop bits w a b) :=
    List.map_congr_left (fun w _ => popcount64_masked_eq_windowPop bits w a b)
  rw [hmap]
  rcases le_or_lt a b with hab | hab
  · exact windowPop_sum bits _ _ a b (by omega) (by omega)
  · rw [rangeCount_zero bits a b (by omega), List.sum_eq_zero]
    intro x hx
    rw [List.mem_map] at hx
    obtain ⟨w, _, hxe⟩ := hx
    rw [← hxe, windowPop, List.countP_eq_zero.mpr]
    intro k _
    simp only [Bool.and_eq_true, decide_eq_true_eq, not_and]
    intro h1 h2
    omega

/-- Shallow embedding of `cs::BitVector`: bit count, packed 64-bit words, and
the two rank-sample arrays (uint32 absolute / uint16 relative). -/
structure BitVector where
  nbits : Nat
  bits : List Nat
  super : List Nat
  blocks : List Nat

/-- `BitVector::build`: pack the bits and fill both sample arrays.  The loop
carries `running_rank` (absolute rank at the current sub-block) and
`local_rank` (rank relative to the current super-block); the array entries it
stores are written here in closed form as sums of the same per-sub-block
masked popcounts accumulated by the loop.  Sub-block `t` always belongs to
super-block `t / 8` because only the final super-block can be partial. -/
def BitVector.build (bitsIn : List Bool) : BitVector :=
  { nbits := bitsIn.length
  , bits := packWords bitsIn
  , super := (List.range (numSupers bitsIn.length)).map (fun j =>
      (((List.range (8 * j)).map
        (fun u => subPop bitsIn (256 * u) (subEnd bitsIn.length u))).sum) % 2 ^ 32)
  , blocks := (List.range (numSubs bitsIn.length)).map (fun t =>
      (((List.range' (8 * (t / 8)) (t - 8 * (t / 8))).map
        (fun u => subPop bitsIn (256 * u) (subEnd bitsIn.length u))).sum) % 2 ^ 16) }

/-- `BitVector::count_ones`: popcount of every word, masking out the bits
beyond `nbits_` in the final word. -/
def BitVector.count_ones (bv : BitVector) : Nat :=
  ((List.range bv.bits.length).map (fun w =>
    if 64 * w + 64 > bv.nbits
    then popcount64 ((bv.bits.getD w 0) &&& (2 ^ (bv.nbits - 64 * w) - 1))
    else popcount64 (bv.bits.getD w 0))).sum

/-- `BitVector::rank1`: super-block sample, plus sub-block sample, plus masked
tail popcount.  The tail loop's extra guard `w < bits_.size()` is dropped: the
word range never leaves the array for a built vector, and an out-of-range
`getD` yields the zero word, which contributes nothing either way. -/
def BitVector.rank1 (bv : BitVector) (i : Nat) : Nat :=
  if i = 0 then 0
  else if i ≥ bv.nbits then bv.count_ones
  else
    let superIdx := i / 2048
    let superStart := superIdx * 2048
    let r0 := bv.super.getD superIdx 0
    if i - superStart = 0 then r0
    else
      let subOff := (i - superStart) / 256
      let blockIdx := superIdx * 8 + subOff
      let r1 := r0 + (if blockIdx < bv.blocks.length then bv.blocks.getD blockIdx 0 else 0)
      let subStart := superStart + subOff * 256
      if i = subStart then r1
      else
        r1 + ((List.range' (subStart / 64) ((i - 1) / 64 + 1 - subStart / 64)).map
          (fun w => popcount64 (maskedWordKeep (bv.bits.getD w 0) w subStart i))).sum

/-- `BitVector::rank0(i)`: clamp `i` to `nbits_`, then `i - rank1(i)`. -/
def BitVector.rank0 (bv : BitVector) (i : Nat) : Nat :=
  (if i > bv.nbits then bv.nbits else i) - bv.rank1 (if i > bv.nbits then bv.nbits else i)

/-- `BitVector::get(i)`: zero past the end, else bit `i % 64` of word `i / 64`. -/
def BitVector.get (bv : BitVector) (i : Nat) : Nat :=
  if i ≥ bv.nbits then 0 else (bv.bits.getD (i / 64) 0 >>> (i % 64)) &&& 1

/-- `BitVector::size`. -/
def BitVector.size (bv : BitVector) : Nat := bv.nbits

theorem packWords_getD (bits : List Bool) (w : Nat) :
    (packWords bits).getD w 0 = wordOf bits w := by
  rcases Nat.lt_or_ge w (numWords bits.length) with h | h
  · rw [packWords, List.getD_eq_getElem _ _ (by simpa using h), List.getElem_map,
      List.getElem_range]
  · rw [packWords, List.getD_eq_default _ _ (by simpa using h)]
    rw [wordOf, List.drop_eq_nil_of_le, List.take_nil]
    · rfl
    · rw [numWords] at h
      omega

theorem sum_subPop_eq (bits : List Bool) : ∀ (cnt t0 : Nat),
    ((List.range' t0 cnt).map (fun u => subPop bits (256 * u) (subEnd bits.length u))).sum =
      rangeCount bits (min (256 * t0) bits.length) (min (256 * (t0 + cnt)) bits.length) := by
  intro cnt
  induction cnt with
  | zero =>
      intro t0
      simp only [List.range'_zero, List.map_nil, List.sum_nil, Nat.add_zero]
      rw [rangeCount_zero]
      omega
  | succ cnt ih =>
      intro t0
      rw [List.range'_succ, List.map_cons, List.sum_cons, ih (t0 + 1),
        subPop_eq_rangeCount, subEnd]
      rw [show t0 + 1 + cnt = t0 + (cnt + 1) by omega]
      rcases le_or_lt (256 * t0) bits.length with h | h
      · rw [show min (256 * t0) bits.length = 256 * t0 by omega]
        rw [show min (256 * t0 + 256) bits.length = min (256 * (t0 + 1)) bits.length by
          omega]
        rw [← rangeCount_split bits (256 * t0) (min (256 * (t0 + 1)) bits.length)
          (min (256 * (t0 + (cnt + 1))) bits.length) (by omega) (by omega)]
      · rw [rangeCount_zero bits _ _ (by omega)]
        rw [show min (256 * t0) bits.length = bits.length by omega]
        rw [show min (256 * (t0 + 1)) bits.length = bits.length by omega]
        rw [show min (256 * (t0 + (cnt + 1))) bits.length = bits.length by omega]
        rw [rangeCount_zero bits _ _ (by omega)]

theorem rangeCount_le (bits : List Bool) (a b : Nat) : rangeCount bits a b ≤ b - a := by
  rw [rangeCount]
  calc (List.range' a (b - a)).countP (fun p => bits.getD p false)
      ≤ (List.range' a (b - a)).length := List.countP_le_length _
    _ = b - a := List.length_range' ..

theorem build_super_getD (bits : List Bool) (j : Nat) (hj : j < numSupers bits.length)
    (h32 : bits.length < 2 ^ 32) :
    (BitVector.build bits).super.getD j 0 = naiveRank bits (2048 * j) := by
  rw [BitVector.build]
  rw [List.getD_eq_getElem _ _ (by simpa using hj), List.getElem_map, List.getElem_range]
  rw [show List.range (8 * j) = List.range' 0 (8 * j) from List.range_eq_range' _]
  rw [sum_subPop_eq bits (8 * j) 0]
  have h1 : min (256 * 0) bits.length = 0 := by omega
  have h2 : 256 * (0 + 8 * j) = 2048 * j := by ring
  rw [h1, h2]
  have h3 : rangeCount bits 0 (min (2048 * j) bits.length) = naiveRank bits (2048 * j) := by
    rw [naiveRank_take_eq]
    rcases le_or_lt (2048 * j) bits.length with h | h
    · rw [min_eq_left h]
    · rw [min_eq_right (by omega)]
      rw [rangeCount_split bits 0 bits.length (2048 * j) (by omega) (by omega)]
      have hz : rangeCount bits bits.length (2048 * j) = 0 := by
        rw [rangeCount, List.countP_eq_zero]
        intro p hp
        rw [List.mem_range'] at hp
        obtain ⟨t, ht, rfl⟩ := hp
        have hd : bits.getD (bits.length + 1 * t) false = false :=
          List.getD_eq_default _ _ (by omega)
        rw [List.getD_eq_getElem?_getD] at hd
        simpa using hd
      omega
  rw [h3]
  apply Nat.mod_eq_of_lt
  have h4 : naiveRank bits (2048 * j) ≤ bits.length := by
    rw [naiveRank]
    calc (bits.take (2048 * j)).countP (fun b => b) ≤ (bits.take (2048 * j)).length :=
        List.countP_le_length _
      _ ≤ bits.length := by simp [List.length_take]
  omega

theorem build_blocks_getD (bits : List Bool) (t : Nat) (ht : t < numSubs bits.length)
    (htn : 256 * t ≤ bits.length) :
    (BitVector.build bits).blocks.getD t 0 =
      rangeCount bits (min (2048 * (t / 8)) bits.length) (256 * t) := by
  rw [BitVector.build]
  rw [List.getD_eq_getElem _ _ (by simpa using ht), List.getElem_map, List.getElem_range]
  rw [sum_subPop_eq bits (t - 8 * (t / 8)) (8 * (t / 8))]
  have h1 : 256 * (8 * (t / 8)) = 2048 * (t / 8) := by ring
  have h2 : 8 * (t / 8) + (t - 8 * (t / 8)) = t := by omega
  rw [h1, h2, min_eq_left htn]
  apply Nat.mod_eq_of_lt
  have h3 := rangeCount_le bits (min (2048 * (t / 8)) bits.length) (256 * t)
  have h4 : 2048 * (t / 8) ≤ 256 * t := by omega
  have h5 : 256 * t - min (2048 * (t / 8)) bits.length ≤ 256 * t - 2048 * (t / 8) := by
    omega
  have h6 : 256 * t - 2048 * (t / 8) < 2 ^ 16 := by
    have : t < 8 * (t / 8) + 8 := by omega
    have : 256 * t < 2048 * (t / 8) + 2048 := by omega
    omega
  omega

theorem build_count_ones (bits : List Bool) :
    (BitVector.build bits).count_ones = naiveRank bits bits.length := by
  rw [BitVector.count_ones]
  have hlen : (BitVector.build bits).bits.length = numWords bits.length := by
    rw [BitVector.build, packWords]
    simp
  have hnb : (BitVector.build bits).nbits = bits.length := rfl
  rw [hlen, hnb]
  have hmap : (List.range (numWords bits.length)).map (fun w =>
      if 64 * w + 64 > bits.length
      then popcount64 (((BitVector.build bits).bits.getD w 0) &&&
        (2 ^ (bits.length - 64 * w) - 1))
      else popcount64 ((BitVector.build bits).bits.getD w 0)) =
      (List.range (numWords bits.length)).map (fun w => windowPop bits w 0 bits.length) := by
    apply List.map_congr_left
    intro w hw
    rw [List.mem_range] at hw
    have hb : (BitVector.build bits).bits.getD w 0 = wordOf bits w := packWords_getD bits w
    have hwlt : 64 * w < bits.length := by
      rw [numWords] at hw
      omega
    by_cases hc : 64 * w + 64 > bits.length
    · rw [if_pos hc, hb, popcount64, windowPop]
      apply List.countP_congr
      intro k hk
      rw [List.mem_range] at hk
      rw [Nat.testBit_land, Nat.testBit_two_pow_sub_one, wordOf_testBit _ _ _ hk]
      cases hg : bits.getD (64 * w + k) false
      · simp
      · simp only [Bool.true_and, Bool.and_eq_true, decide_eq_true_eq]
        omega
    · rw [if_neg hc, hb, popcount64, windowPop]
      apply List.countP_congr
      intro k hk
      rw [List.mem_range] at hk
      rw [wordOf_testBit _ _ _ hk]
      have h0 : decide (0 ≤ 64 * w + k) = true := by simp
      have h1 : decide (64 * w + k < bits.length) = true := by
        rw [decide_eq_true_eq]
        omega
      simp only [h0, h1, Bool.and_true]
  rw [hmap, List.range_eq_range']
  rw [windowPop_sum bits (numWords bits.length) 0 0 bits.length (by omega)
    (by rw [numWords]; omega)]
  rw [naiveRank_take_eq]

theorem build_rank1_eq (bits : List Bool) (h32 : bits.length < 2 ^ 32) (i : Nat) :
    (BitVector.build bits).rank1 i = naiveRank bits i := by
  rw [BitVector.rank1]
  by_cases h0 : i = 0
  · rw [if_pos h0, h0, naiveRank]
    simp
  rw [if_neg h0]
  have hnb : (BitVector.build bits).nbits = bits.length := rfl
  by_cases hn : i ≥ (BitVector.build bits).nbits
  · rw [if_pos hn, build_count_ones]
    rw [hnb] at hn
    rw [naiveRank, naiveRank, List.take_of_length_le hn, List.take_length]
  rw [if_neg hn]
  rw [hnb] at hn
  push_neg at hn
  simp only
  set superIdx := i / 2048 with hsi
  set superStart := superIdx * 2048 with hss
  have hssle : superStart ≤ i := by
    rw [hss, hsi]
    omega
  have hsup : (BitVector.build bits).super.getD superIdx 0 = naiveRank bits superStart := by
    rw [build_super_getD bits superIdx (by rw [numSupers]; omega) h32]
    rw [hss]
    congr 1
    ring
  by_cases hoff : i - superStart = 0
  · rw [if_pos hoff, hsup]
    congr 1
    omega
  rw [if_neg hoff]
  set subOff := (i - superStart) / 256 with hso
  set blockIdx := superIdx * 8 + subOff with hbi
  set subStart := superStart + subOff * 256 with hsub
  have hsuble : subStart ≤ i := by
    rw [hsub, hso]
    omega
  have hsublt : subStart < bits.length := by omega
  have hblt : 256 * blockIdx = subStart := by
    rw [hbi, hsub, hss]
    ring
  have hblen : (BitVector.build bits).blocks.length = numSubs bits.length := by
    rw [BitVector.build]
    simp
  have hbidx : blockIdx < numSubs bits.length := by
    rw [numSubs]
    omega
  have hdiv8 : blockIdx / 8 = superIdx := by
    rw [hbi]
    have : subOff < 8 := by
      rw [hso]
      omega
    omega
  have hblocks : (BitVector.build bits).blocks.getD blockIdx 0 =
      rangeCount bits superStart subStart := by
    rw [build_blocks_getD bits blockIdx hbidx (by omega)]
    rw [hdiv8, hblt]
    congr 1
    have : 2048 * superIdx = superStart := by
      rw [hss]
      ring
    omega
  rw [if_pos (by omega : blockIdx < (BitVector.build bits).blocks.length), hsup, hblocks]
  by_cases heq : i = subStart
  · rw [if_pos heq, ← naiveRank_split bits superStart subStart (by omega), heq]
  rw [if_neg heq]
  have htail : ((List.range' (subStart / 64) ((i - 1) / 64 + 1 - subStart / 64)).map
      (fun w => popcount64 (maskedWordKeep ((BitVector.build bits).bits.getD w 0)
        w subStart i))).sum = rangeCount bits subStart i := by
    have hmap : (List.range' (subStart / 64) ((i - 1) / 64 + 1 - subStart / 64)).map
        (fun w => popcount64 (maskedWordKeep ((BitVector.build bits).bits.getD w 0)
          w subStart i)) =
        (List.range' (subStart / 64) ((i - 1) / 64 + 1 - subStart / 64)).map
        (fun w => windowPop bits w subStart i) := by
      apply List.map_congr_left
      intro w _
      rw [show (BitVector.build bits).bits.getD w 0 = wordOf bits w from packWords_getD bits w]
      exact popcount64_maskedKeep_eq_windowPop bits w subStart i
    rw [hmap]
    exact windowPop_sum bits _ _ subStart i (by omega) (by omega)
  rw [htail, ← naiveRank_split bits superStart subStart (by omega)]
  rw [← naiveRank_split bits subStart i (by omega)]

/-- Summary form used downstream: `rank1` after `build` is the naive rank. -/
theorem build_rank1_min (bits : List Bool) (h32 : bits.length < 2 ^ 32) (i : Nat) :
    (BitVector.build bits).rank1 i = naiveRank bits (min i bits.length) := by
  rw [build_rank1_eq bits h32 i, naiveRank, naiveRank]
  congr 1
  rcases le_or_lt i bits.length with h | h
  · rw [min_eq_left h]
  · rw [min_eq_right (by omega), List.take_of_length_le (by omega),
      List.take_of_length_le (by omega)]

/-! ### BitvectorLearned (`bitvector_learned.cpp`)

The `PgmModel` (`pgm.hpp`) is fit by floating-point least squares; its only
use is through `predict`, an `int32_t`-valued function evaluated at the same
argument (`coarse_start = (i / S) * S`) when the residual is stored at build
time and when it is consumed at query time.  The fitted model is therefore
embedded as an arbitrary integer-valued prediction function
`predict : Nat → Int`, standing for the `int32_t` value `pgm_.predict`
returns; the theorems below hold for every such function.  The prediction
cancels against the stored residual only when that residual survives the
`int32_t` store unchanged — the truncation itself is modelled by
`int32Wrap` below. -/

/-- Conversion to `int32_t`: reduce modulo `2^32` and interpret the high bit
as the sign (two's complement, as on the target platform; for the
`static_cast<int32_t>` of an out-of-range value this is what x86-64
implementations do, and for the overflowing `int` subtraction — undefined
behaviour in C++ — it is the wrap the generated code performs). -/
def int32Wrap (x : Int) : Int :=
  if x % 2 ^ 32 < 2 ^ 31 then x % 2 ^ 32 else x % 2 ^ 32 - 2 ^ 32

theorem int32Wrap_eq (x : Int) (hlo : -(2 : Int) ^ 31 ≤ x) (hhi : x < 2 ^ 31) :
    int32Wrap x = x := by
  have e1 : (2 : Int) ^ 31 = 2147483648 := by norm_num
  have e2 : (2 : Int) ^ 32 = 4294967296 := by norm_num
  rw [int32Wrap]
  by_cases hx : 0 ≤ x
  · rw [Int.emod_eq_of_lt hx (by omega), if_pos (by omega)]
  · have h1 : (x + 2 ^ 32 * 1) % 2 ^ 32 = x % 2 ^ 32 :=
      Int.add_mul_emod_self_left x (2 ^ 32) 1
    rw [Int.mul_one] at h1
    have hshift : x % 2 ^ 32 = x + 2 ^ 32 := by
      rw [← h1]
      exact Int.emod_eq_of_lt (by omega) (by omega)
    rw [hshift, if_neg (by omega)]
    omega

structure BitvectorLearned where
  nbits : Nat
  S : Nat
  s : Nat
  bits : List Nat
  predict : Nat → Int
  residuals : List Int

/-- `BitvectorLearned::build`.  The residual loop walks the micro-blocks of
each coarse block carrying `running_rank + local_rank`, which at micro start
`j*S + m*s` equals the naive rank at that position; entries whose micro start
lies past the end keep their initial value 0.  The stored value is
`static_cast<int32_t>(running_rank + local_rank) - pgm_pred` kept in an
`int32_t`: the cast is the inner `int32Wrap`, and the `int` subtraction
(whose overflow the target wraps) with the `int32_t` store is the outer
`int32Wrap`. -/
def BitvectorLearned.build (bitsIn : List Bool) (S s : Nat) (pf : Nat → Int) :
    BitvectorLearned :=
  { nbits := bitsIn.length
  , S := S
  , s := s
  , bits := packWords bitsIn
  , predict := pf
  , residuals :=
      if 0 < s ∧ S % s = 0 then
        (List.range (((bitsIn.length + S - 1) / S) * (S / s))).map (fun t =>
          if (t / (S / s)) * S + (t % (S / s)) * s < bitsIn.length
          then int32Wrap
            (int32Wrap (naiveRank bitsIn ((t / (S / s)) * S + (t % (S / s)) * s) : Int) -
              pf ((t / (S / s)) * S))
          else 0)
      else [] }

/-- `BitvectorLearned::count_ones` (the same loop as `BitVector::count_ones`). -/
def BitvectorLearned.count_ones (bv : BitvectorLearned) : Nat :=
  ((List.range bv.bits.length).map (fun w =>
    if 64 * w + 64 > bv.nbits
    then popcount64 ((bv.bits.getD w 0) &&& (2 ^ (bv.nbits - 64 * w) - 1))
    else popcount64 (bv.bits.getD w 0))).sum

/-- `BitvectorLearned::rank1`.  The bounded-touch branch (`num_words ≤ R`,
with `CS_MAX_TAIL_POPCOUNTS_R = 2`) and its fallback run the character-for-
character identical masked word loop, so both branches are translated by the
same tail sum; the loop's `w < bits_.size()` guard is dropped exactly as in
`BitVector.rank1` (out-of-range `getD` reads the zero word). -/
def BitvectorLearned.rank1 (bv : BitvectorLearned) (i : Nat) : Nat :=
  if i = 0 then 0
  else if i ≥ bv.nbits then bv.count_ones
  else
    let coarseIdx := i / bv.S
    let coarsePos := coarseIdx * bv.S
    let pred : Int := bv.predict coarsePos
    let microIdx := (i - coarsePos) / bv.s
    let correction : Int :=
      if ¬ bv.residuals.isEmpty ∧ 0 < bv.s then
        (if coarseIdx * (bv.S / bv.s) + microIdx < bv.residuals.length
         then bv.residuals.getD (coarseIdx * (bv.S / bv.s) + microIdx) 0
         else 0)
      else 0
    let microStart := coarsePos + microIdx * bv.s
    let tailPop : Nat :=
      if i - microStart ≠ 0 then
        ((List.range' (microStart / 64) ((i - 1) / 64 + 1 - microStart / 64)).map
          (fun w => popcount64 (maskedWordKeep (bv.bits.getD w 0) w microStart i))).sum
      else 0
    let result : Int := pred + correction + (tailPop : Int)
    if result < 0 then 0 else result.toNat

theorem learned_count_ones_eq (bitsIn : List Bool) (S s : Nat) (pf : Nat → Int) :
    (BitvectorLearned.build bitsIn S s pf).count_ones =
      (BitVector.build bitsIn).count_ones := rfl


theorem learned_rank1_eq (bitsIn : List Bool) (S s : Nat) (pf : Nat → Int)
    (hs : 0 < s) (hS : 0 < S) (hdvd : S % s = 0) (h31 : bitsIn.length < 2 ^ 31)
    (hfit : ∀ t, t < ((bitsIn.length + S - 1) / S) * (S / s) →
      (t / (S / s)) * S + (t % (S / s)) * s < bitsIn.length →
      -(2 : Int) ^ 31
          ≤ (naiveRank bitsIn ((t / (S / s)) * S + (t % (S / s)) * s) : Int)
            - pf ((t / (S / s)) * S) ∧
        (naiveRank bitsIn ((t / (S / s)) * S + (t % (S / s)) * s) : Int)
            - pf ((t / (S / s)) * S) < 2 ^ 31)
    (i : Nat) :
    (BitvectorLearned.build bitsIn S s pf).rank1 i = naiveRank bitsIn i := by
  rw [BitvectorLearned.rank1]
  by_cases h0 : i = 0
  · rw [if_pos h0, h0, naiveRank]
    simp
  rw [if_neg h0]
  have hnb : (BitvectorLearned.build bitsIn S s pf).nbits = bitsIn.length := rfl
  by_cases hn : i ≥ (BitvectorLearned.build bitsIn S s pf).nbits
  · rw [if_pos hn, learned_count_ones_eq, build_count_ones]
    rw [hnb] at hn
    rw [naiveRank, naiveRank, List.take_of_length_le hn, List.take_length]
  rw [if_neg hn]
  rw [hnb] at hn
  push_neg at hn
  simp only
  have hSproj : (BitvectorLearned.build bitsIn S s pf).S = S := rfl
  have hsproj : (BitvectorLearned.build bitsIn S s pf).s = s := rfl
  rw [hSproj, hsproj]
  obtain ⟨q, hq⟩ := Nat.dvd_of_mod_eq_zero hdvd
  have hq1 : 1 ≤ q := by
    rcases Nat.eq_zero_or_pos q with hz | hp
    · rw [hz, Nat.mul_zero] at hq
      omega
    · omega
  have hSdiv : S / s = q := by
    rw [hq, Nat.mul_div_cancel_left q hs]
  have hcple : (i / S) * S ≤ i := Nat.div_mul_le_self i S
  have hoff : i - (i / S) * S = i % S := by
    have h := Nat.div_add_mod i S
    rw [Nat.mul_comm S (i / S)] at h
    omega
  have hmicslt : (i - (i / S) * S) / s < S / s := by
    rw [hoff, hSdiv]
    have h1 : i % S < S := Nat.mod_lt _ hS
    have h2 : i % S / s ≤ (S - 1) / s := Nat.div_le_div_right (by omega)
    have h3 : (S - 1) / s = q - 1 := by
      have h4 : S - 1 = s * (q - 1) + (s - 1) := by
        rw [hq, Nat.mul_sub_one]
        have h5 : s ≤ s * q := Nat.le_mul_of_pos_right s hq1
        omega
      rw [h4, Nat.mul_add_div hs, Nat.div_eq_of_lt (by omega), Nat.add_zero]
    have h6 : i % S / s ≤ q - 1 := by
      rw [← h3]
      exact h2
    omega
  have hcidx : i / S < (bitsIn.length + S - 1) / S := by
    have h1 : i / S ≤ (bitsIn.length - 1) / S := Nat.div_le_div_right (by omega)
    have h2 : (bitsIn.length + S - 1) / S = (bitsIn.length - 1) / S + 1 := by
      rw [show bitsIn.length + S - 1 = (bitsIn.length - 1) + S by omega,
        Nat.add_div_right _ hS]
    omega
  have htdiv : ((i / S) * (S / s) + (i - (i / S) * S) / s) / (S / s) = i / S := by
    rw [Nat.mul_comm (i / S) (S / s), Nat.mul_add_div (by omega : 0 < S / s),
      Nat.div_eq_of_lt hmicslt, Nat.add_zero]
  have htmod : ((i / S) * (S / s) + (i - (i / S) * S) / s) % (S / s) =
      (i - (i / S) * S) / s := by
    rw [Nat.mul_comm (i / S) (S / s), Nat.mul_add_mod, Nat.mod_eq_of_lt hmicslt]
  have hreslen : (BitvectorLearned.build bitsIn S s pf).residuals.length =
      ((bitsIn.length + S - 1) / S) * (S / s) := by
    rw [BitvectorLearned.build]
    simp only
    rw [if_pos ⟨hs, hdvd⟩, List.length_map, List.length_range]
  have htlt : (i / S) * (S / s) + (i - (i / S) * S) / s <
      ((bitsIn.length + S - 1) / S) * (S / s) := by
    calc (i / S) * (S / s) + (i - (i / S) * S) / s
        < (i / S) * (S / s) + (S / s) := by omega
      _ = ((i / S) + 1) * (S / s) := by ring
      _ ≤ ((bitsIn.length + S - 1) / S) * (S / s) :=
          Nat.mul_le_mul_right _ (by omega)
  have hmsle : (i / S) * S + ((i - (i / S) * S) / s) * s ≤ i := by
    have h1 : ((i - (i / S) * S) / s) * s ≤ i - (i / S) * S :=
      Nat.div_mul_le_self _ s
    omega
  have hmslt : (i / S) * S + ((i - (i / S) * S) / s) * s < bitsIn.length := by omega
  have hcorr : (BitvectorLearned.build bitsIn S s pf).residuals.getD
      ((i / S) * (S / s) + (i - (i / S) * S) / s) 0 =
      (naiveRank bitsIn ((i / S) * S + ((i - (i / S) * S) / s) * s) : Int) -
        pf ((i / S) * S) := by
    have hres : (BitvectorLearned.build bitsIn S s pf).residuals =
        (List.range (((bitsIn.length + S - 1) / S) * (S / s))).map (fun u =>
          if (u / (S / s)) * S + (u % (S / s)) * s < bitsIn.length
          then int32Wrap
            (int32Wrap (naiveRank bitsIn ((u / (S / s)) * S + (u % (S / s)) * s) : Int) -
              pf ((u / (S / s)) * S))
          else 0) := by
      rw [BitvectorLearned.build]
      simp only
      rw [if_pos ⟨hs, hdvd⟩]
    rw [hres]
    rw [List.getD_eq_getElem _ _ (by
      rw [List.length_map, List.length_range]
      exact htlt)]
    rw [List.getElem_map, List.getElem_range]
    rw [htdiv, htmod]
    rw [if_pos hmslt]
    have hrkle : naiveRank bitsIn ((i / S) * S + ((i - (i / S) * S) / s) * s)
        ≤ bitsIn.length := by
      rw [naiveRank]
      have h : (bitsIn.take ((i / S) * S + ((i - (i / S) * S) / s) * s)).countP
          (fun b => b)
          ≤ (bitsIn.take ((i / S) * S + ((i - (i / S) * S) / s) * s)).length :=
        List.countP_le_length _
      rw [List.length_take] at h
      omega
    have hresi := hfit ((i / S) * (S / s) + (i - (i / S) * S) / s) htlt
    rw [htdiv, htmod] at hresi
    have hresi2 := hresi hmslt
    rw [int32Wrap_eq
      ((naiveRank bitsIn ((i / S) * S + ((i - (i / S) * S) / s) * s) : Int))
      (le_trans (by norm_num) (Int.natCast_nonneg _))
      (by exact_mod_cast (by omega :
        naiveRank bitsIn ((i / S) * S + ((i - (i / S) * S) / s) * s) < 2 ^ 31))]
    rw [int32Wrap_eq _ hresi2.1 hresi2.2]
  have hguard : (¬ (BitvectorLearned.build bitsIn S s pf).residuals.isEmpty = true ∧
      0 < s) := by
    constructor
    · rw [List.isEmpty_iff, ← List.length_eq_zero, hreslen]
      have h1 : 1 ≤ (bitsIn.length + S - 1) / S :=
        Nat.lt_of_le_of_lt (Nat.zero_le _) hcidx
      have h2 : 1 ≤ S / s := by
        rw [hSdiv]
        omega
      have : 1 * 1 ≤ ((bitsIn.length + S - 1) / S) * (S / s) := Nat.mul_le_mul h1 h2
      omega
    · exact hs
  have hpf : (BitvectorLearned.build bitsIn S s pf).predict = pf := rfl
  rw [if_pos hguard, hreslen]
  rw [if_pos htlt]
  rw [hcorr, hpf]
  have htail : (if i - ((i / S) * S + ((i - (i / S) * S) / s) * s) ≠ 0 then
      ((List.range' (((i / S) * S + ((i - (i / S) * S) / s) * s) / 64)
        ((i - 1) / 64 + 1 - ((i / S) * S + ((i - (i / S) * S) / s) * s) / 64)).map
        (fun w => popcount64 (maskedWordKeep
          ((BitvectorLearned.build bitsIn S s pf).bits.getD w 0) w
          ((i / S) * S + ((i - (i / S) * S) / s) * s) i))).sum
      else 0) = rangeCount bitsIn ((i / S) * S + ((i - (i / S) * S) / s) * s) i := by
    by_cases hmi0 : i - ((i / S) * S + ((i - (i / S) * S) / s) * s) ≠ 0
    · rw [if_pos hmi0]
      have hmap : (List.range' (((i / S) * S + ((i - (i / S) * S) / s) * s) / 64)
          ((i - 1) / 64 + 1 - ((i / S) * S + ((i - (i / S) * S) / s) * s) / 64)).map
          (fun w => popcount64 (maskedWordKeep
            ((BitvectorLearned.build bitsIn S s pf).bits.getD w 0) w
            ((i / S) * S + ((i - (i / S) * S) / s) * s) i)) =
          (List.range' (((i / S) * S + ((i - (i / S) * S) / s) * s) / 64)
          ((i - 1) / 64 + 1 - ((i / S) * S + ((i - (i / S) * S) / s) * s) / 64)).map
          (fun w => windowPop bitsIn w ((i / S) * S + ((i - (i / S) * S) / s) * s) i) := by
        apply List.map_congr_left
        intro w _
        rw [show (BitvectorLearned.build bitsIn S s pf).bits.getD w 0 = wordOf bitsIn w
          from packWords_getD bitsIn w]
        exact popcount64_maskedKeep_eq_windowPop bitsIn w _ i
      rw [hmap]
      exact windowPop_sum bitsIn _ _ _ i (by omega) (by omega)
    · rw [if_neg hmi0]
      rw [rangeCount_zero bitsIn _ i (by omega)]
  rw [htail]
  have hfinal : pf ((i / S) * S) +
      ((naiveRank bitsIn ((i / S) * S + ((i - (i / S) * S) / s) * s) : Int) -
        pf ((i / S) * S)) +
      (rangeCount bitsIn ((i / S) * S + ((i - (i / S) * S) / s) * s) i : Int) =
      (naiveRank bitsIn i : Int) := by
    have hsplit : naiveRank bitsIn i =
        naiveRank bitsIn ((i / S) * S + ((i - (i / S) * S) / s) * s) +
        rangeCount bitsIn ((i / S) * S + ((i - (i / S) * S) / s) * s) i :=
      naiveRank_split bitsIn _ i hmsle
    rw [hsplit]
    push_cast
    ring
  rw [hfinal]
  rw [if_neg (by omega : ¬ ((naiveRank bitsIn i : Int) < 0))]
  exact Int.toNat_natCast _


/-! ### WaveletTree (`wavelet.cpp`)

Eight levels, one per byte bit from MSB (level 0, bit 7) to LSB (level 7,
bit 0).  Each level records the examined bit of every symbol in a
`BitVector`, then partitions the symbols stably — zeros first, ones second —
to produce the sequence entering the next level. -/

/-- `(sym >> bit) & 1`. -/
def bitOfN (sym bit : Nat) : Nat := (sym >>> bit) &&& 1

/-- Symbol sequence entering level `ℓ` (level 0 is the BWT; each step is the
stable zeros-first / ones-second partition on bit `7 - ℓ` performed by the
build loop). -/
def wtSyms (bwt : List Nat) : Nat → List Nat
  | 0 => bwt
  | ℓ + 1 =>
      (wtSyms bwt ℓ).filter (fun sym => bitOfN sym (7 - ℓ) == 0) ++
      (wtSyms bwt ℓ).filter (fun sym => !(bitOfN sym (7 - ℓ) == 0))

structure WaveletTree where
  n : Nat
  levels : List BitVector

/-- `WaveletTree::build`: level `ℓ` stores bit `7 - ℓ` of each symbol at that
level.  (For the empty BWT the source keeps the eight default-constructed
`BitVector`s, which coincide with `BitVector.build []`.) -/
def WaveletTree.build (bwt : List Nat) : WaveletTree :=
  { n := bwt.length
  , levels := (List.range 8).map (fun lvl =>
      BitVector.build ((wtSyms bwt lvl).map (fun sym => !(bitOfN sym (7 - lvl) == 0)))) }

/-- The level loop of `WaveletTree::rank`, indexed by the number of remaining
levels (`rem = 8 - level`): maintain the half-open interval `[start, stop)`,
early-exit with 0 on an empty interval, return `stop - start` after level 7.
The source computes `rank0(x)` inline as `x - bv.rank1(x)` and the zero total
as `bv.size() - bv.rank1(bv.size())`. -/
def WaveletTree.rankFrom (wt : WaveletTree) (c : Nat) : Nat → Nat → Nat → Nat
  | 0, start, stop => stop - start
  | rem + 1, start, stop =>
      let lvl := 8 - (rem + 1)
      let bv := wt.levels.getD lvl (BitVector.build [])
      let zt := bv.size - bv.rank1 bv.size
      let start1 := if bitOfN c (7 - lvl) = 0
        then start - bv.rank1 start
        else zt + bv.rank1 start
      let stop1 := if bitOfN c (7 - lvl) = 0
        then stop - bv.rank1 stop
        else zt + bv.rank1 stop
      if start1 ≥ stop1 then 0 else wt.rankFrom c rem start1 stop1

/-- `WaveletTree::rank(c, i)`.  The guard returns 0 whenever `i > n_`, which
makes the clamp on the following source line dead code; both are kept
verbatim. -/
def WaveletTree.rank (wt : WaveletTree) (c i : Nat) : Nat :=
  if i = 0 ∨ i > wt.n then 0
  else
    let i2 := if i > wt.n then wt.n else i
    wt.rankFrom c 8 0 i2

theorem wtSyms_length (bwt : List Nat) (lvl : Nat) :
    (wtSyms bwt lvl).length = bwt.length := by
  induction lvl with
  | zero => rfl
  | succ lvl ih =>
      rw [wtSyms, List.length_append, ← List.countP_eq_length_filter,
        ← List.countP_eq_length_filter]
      rw [← ih]
      set L := wtSyms bwt lvl
      induction L with
      | nil => simp
      | cons x t iht =>
          rw [List.countP_cons, List.countP_cons, List.length_cons]
          cases h : (bitOfN x (7 - lvl) == 0) <;> simp [h] <;> omega

theorem bitOfN_eq_mod (sym bit : Nat) : bitOfN sym bit = sym / 2 ^ bit % 2 := by
  rw [bitOfN, Nat.shiftRight_eq_div_pow, Nat.and_one_is_mod]

/-- Refining a top-bits match by one more bit. -/
theorem matchTop_step (s c e : Nat) :
    (s / 2 ^ e == c / 2 ^ e) =
      ((s / 2 ^ (e + 1) == c / 2 ^ (e + 1)) && (bitOfN s e == bitOfN c e)) := by
  rw [bitOfN_eq_mod, bitOfN_eq_mod]
  have hs : s / 2 ^ (e + 1) = s / 2 ^ e / 2 := by
    rw [pow_succ, ← Nat.div_div_eq_div_mul]
  have hc : c / 2 ^ (e + 1) = c / 2 ^ e / 2 := by
    rw [pow_succ, ← Nat.div_div_eq_div_mul]
  rw [hs, hc]
  rw [Bool.eq_iff_iff]
  simp only [Bool.and_eq_true, beq_iff_eq]
  omega

/-- Matches at full precision imply matches at any coarser precision. -/
theorem matchTop_mono (s c e f : Nat) (hef : e ≤ f)
    (h : s / 2 ^ e = c / 2 ^ e) : s / 2 ^ f = c / 2 ^ f := by
  have := Nat.div_div_eq_div_mul s (2 ^ e) (2 ^ (f - e))
  have := Nat.div_div_eq_div_mul c (2 ^ e) (2 ^ (f - e))
  have hpow : 2 ^ e * 2 ^ (f - e) = 2 ^ f := by
    rw [← pow_add]
    congr 1
    omega
  calc s / 2 ^ f = s / 2 ^ e / 2 ^ (f - e) := by
        rw [Nat.div_div_eq_div_mul, hpow]
      _ = c / 2 ^ e / 2 ^ (f - e) := by rw [h]
      _ = c / 2 ^ f := by rw [Nat.div_div_eq_div_mul, hpow]

theorem countP_comp_not (l : List Nat) (p : Nat → Bool) :
    l.countP p + l.countP (fun a => !(p a)) = l.length := by
  induction l with
  | nil => simp
  | cons x t ih =>
      rw [List.countP_cons, List.countP_cons, List.length_cons]
      cases h : p x <;> simp [h] <;> omega

theorem countP_take_le_countP (l : List Nat) (p : Nat → Bool) (x : Nat) :
    (l.take x).countP p ≤ l.countP p := by
  conv_rhs => rw [← List.take_append_drop x l]
  rw [List.countP_append]
  omega


theorem countP_take_mono (l : List Nat) (p : Nat → Bool) (x y : Nat) (hxy : x ≤ y) :
    (l.take x).countP p ≤ (l.take y).countP p := by
  have h1 : (l.take y).take x = l.take x := by
    rw [List.take_take, min_eq_left hxy]
  calc (l.take x).countP p = ((l.take y).take x).countP p := by rw [h1]
    _ ≤ (l.take y).countP p := countP_take_le_countP _ p x

/-- Tracking a contiguous slice through the zeros-first half of a stable
partition (the `bit = 0` branch of the wavelet rank walk). -/
theorem partition_slice_left (L pref : List Nat) (p q : Nat → Bool) (lo hi : Nat)
    (hlohi : lo ≤ hi) (hhi : hi ≤ L.length)
    (hslice : (L.drop lo).take (hi - lo) = pref.filter q) :
    (((L.filter p ++ L.filter (fun a => !(p a))).drop ((L.take lo).countP p)).take
      ((L.take hi).countP p - (L.take lo).countP p)) =
      pref.filter (fun a => p a && q a) := by
  have htake : (L.filter p ++ L.filter (fun a => !(p a))).take ((L.take hi).countP p) =
      (L.take hi).filter p := by
    have hsplitL : L.filter p = (L.take hi).filter p ++ (L.drop hi).filter p := by
      rw [← List.filter_append, List.take_append_drop]
    rw [hsplitL, List.append_assoc]
    rw [show (L.take hi).countP p = ((L.take hi).filter p).length from
      List.countP_eq_length_filter _ _]
    exact List.take_left _ _
  rw [← List.drop_take, htake]
  have hsplit2 : L.take hi = L.take lo ++ (L.drop lo).take (hi - lo) := by
    rw [show hi = lo + (hi - lo) by omega, List.take_add]
    congr 2
    omega
  rw [hsplit2, List.filter_append]
  rw [show (L.take lo).countP p = ((L.take lo).filter p).length from
    List.countP_eq_length_filter _ _]
  rw [List.drop_left, hslice, List.filter_filter]

/-- Tracking a contiguous slice through the ones-second half of a stable
partition (the `bit = 1` branch of the wavelet rank walk). -/
theorem partition_slice_right (L pref : List Nat) (p q : Nat → Bool) (lo hi : Nat)
    (hlohi : lo ≤ hi) (hhi : hi ≤ L.length)
    (hslice : (L.drop lo).take (hi - lo) = pref.filter q) :
    (((L.filter p ++ L.filter (fun a => !(p a))).drop
        (L.countP p + (L.take lo).countP (fun a => !(p a)))).take
      ((L.countP p + (L.take hi).countP (fun a => !(p a))) -
        (L.countP p + (L.take lo).countP (fun a => !(p a))))) =
      pref.filter (fun a => !(p a) && q a) := by
  have htake : (L.filter p ++ L.filter (fun a => !(p a))).take
      (L.countP p + (L.take hi).countP (fun a => !(p a))) =
      L.filter p ++ (L.take hi).filter (fun a => !(p a)) := by
    rw [show L.countP p = (L.filter p).length from List.countP_eq_length_filter _ _,
      List.take_append]
    congr 1
    have hsplitL : L.filter (fun a => !(p a)) =
        (L.take hi).filter (fun a => !(p a)) ++ (L.drop hi).filter (fun a => !(p a)) := by
      rw [← List.filter_append, List.take_append_drop]
    rw [hsplitL]
    rw [show (L.take hi).countP (fun a => !(p a)) =
      ((L.take hi).filter (fun a => !(p a))).length from List.countP_eq_length_filter _ _]
    exact List.take_left _ _
  rw [← List.drop_take, htake]
  rw [show L.countP p + (L.take lo).countP (fun a => !(p a)) =
    (L.filter p).length + (L.take lo).countP (fun a => !(p a)) by
      rw [List.countP_eq_length_filter]]
  rw [List.drop_append]
  have hsplit2 : L.take hi = L.take lo ++ (L.drop lo).take (hi - lo) := by
    rw [show hi = lo + (hi - lo) by omega, List.take_add]
    congr 2
    omega
  rw [hsplit2, List.filter_append]
  rw [show (L.take lo).countP (fun a => !(p a)) =
    ((L.take lo).filter (fun a => !(p a))).length from List.countP_eq_length_filter _ _]
  rw [List.drop_left, hslice, List.filter_filter]


theorem build_rank1_countP (L : List Nat) (f : Nat → Bool) (h32 : L.length < 2 ^ 32)
    (x : Nat) (hx : x ≤ L.length) :
    (BitVector.build (L.map f)).rank1 x = (L.take x).countP f := by
  rw [build_rank1_eq (L.map f) (by simpa using h32) x, naiveRank, ← List.map_take,
    List.countP_map]
  apply List.countP_congr
  intro a _
  simp [Function.comp]

/-- Correctness of the wavelet rank level walk: if the current interval
`[lo, hi)` carves out of the current level's symbol sequence exactly the
prefix symbols that agree with `c` on the bits examined so far, the walk
returns the number of occurrences of `c` in the prefix.  `rem` is the number
of levels still to process; the level about to be examined is `8 - rem`. -/
theorem rankFrom_correct (bwt : List Nat) (h32 : bwt.length < 2 ^ 32) (c : Nat)
    (pref : List Nat) :
    ∀ (rem : Nat), rem ≤ 8 → ∀ lo hi,
    lo ≤ hi → hi ≤ (wtSyms bwt (8 - rem)).length →
    ((wtSyms bwt (8 - rem)).drop lo).take (hi - lo) =
      pref.filter (fun sym => sym / 2 ^ rem == c / 2 ^ rem) →
    (WaveletTree.build bwt).rankFrom c rem lo hi = pref.count c := by
  intro rem
  induction rem with
  | zero =>
      intro _ lo hi hlohi hhi hslice
      rw [WaveletTree.rankFrom]
      have hlen : (((wtSyms bwt (8 - 0)).drop lo).take (hi - lo)).length = hi - lo := by
        rw [List.length_take, List.length_drop]
        omega
      rw [hslice] at hlen
      rw [← hlen]
      have hpred : (fun sym => sym / 2 ^ 0 == c / 2 ^ 0) = (fun sym => sym == c) := by
        funext sym
        rw [Nat.pow_zero, Nat.div_one, Nat.div_one]
      rw [hpred, List.count_eq_countP, List.countP_eq_length_filter]
  | succ rem ih =>
      intro hrem lo hi hlohi hhi hslice
      have hbit : 7 - (8 - (rem + 1)) = rem := by omega
      have hlvl1 : (8 - (rem + 1)) + 1 = 8 - rem := by omega
      have hlev : (WaveletTree.build bwt).levels.getD (8 - (rem + 1)) (BitVector.build []) =
          BitVector.build ((wtSyms bwt (8 - (rem + 1))).map
            (fun sym => !(bitOfN sym rem == 0))) := by
        rw [WaveletTree.build]
        simp only
        rw [List.getD_eq_getElem _ _ (by
          rw [List.length_map, List.length_range]
          omega)]
        rw [List.getElem_map, List.getElem_range, hbit]
      simp only [WaveletTree.rankFrom]
      rw [hlev, hbit]
      set L := wtSyms bwt (8 - (rem + 1)) with hL
      have hmb : L.length = bwt.length := wtSyms_length bwt (8 - (rem + 1))
      have hhiL : hi ≤ L.length := hhi
      have hsize : (BitVector.build (L.map (fun sym => !(bitOfN sym rem == 0)))).size =
          L.length := by
        rw [BitVector.size, BitVector.build]
        simp
      have hrank : ∀ x, x ≤ L.length →
          (BitVector.build (L.map (fun sym => !(bitOfN sym rem == 0)))).rank1 x =
          (L.take x).countP (fun sym => !(bitOfN sym rem == 0)) := by
        intro x hx
        exact build_rank1_countP L _ (by omega) x hx
      have hcomp : ∀ x, x ≤ L.length →
          (L.take x).countP (fun sym => bitOfN sym rem == 0) +
          (L.take x).countP (fun sym => !(bitOfN sym rem == 0)) = x := by
        intro x hx
        have h := countP_comp_not (L.take x) (fun sym => bitOfN sym rem == 0)
        rw [List.length_take] at h
        omega
      have hsyms1 : wtSyms bwt (8 - rem) =
          L.filter (fun sym => bitOfN sym rem == 0) ++
          L.filter (fun a => !(bitOfN a rem == 0)) := by
        rw [← hlvl1, wtSyms, hbit]
      rw [hsize, hrank L.length (le_refl _), hrank lo (by omega), hrank hi (by omega),
        List.take_length]
      have hzt : L.length - L.countP (fun sym => !(bitOfN sym rem == 0)) =
          L.countP (fun sym => bitOfN sym rem == 0) := by
        have h := countP_comp_not L (fun sym => bitOfN sym rem == 0)
        omega
      rw [hzt]
      by_cases hcbit : bitOfN c rem = 0
      · rw [if_pos hcbit, if_pos hcbit]
        have hstart : lo - (L.take lo).countP (fun sym => !(bitOfN sym rem == 0)) =
            (L.take lo).countP (fun sym => bitOfN sym rem == 0) := by
          have := hcomp lo (by omega)
          omega
        have hstop : hi - (L.take hi).countP (fun sym => !(bitOfN sym rem == 0)) =
            (L.take hi).countP (fun sym => bitOfN sym rem == 0) := by
          have := hcomp hi (by omega)
          omega
        rw [hstart, hstop]
        have hmono : (L.take lo).countP (fun sym => bitOfN sym rem == 0) ≤
            (L.take hi).countP (fun sym => bitOfN sym rem == 0) :=
          countP_take_mono L _ lo hi hlohi
        have hslice2 := partition_slice_left L pref
          (fun sym => bitOfN sym rem == 0)
          (fun sym => sym / 2 ^ (rem + 1) == c / 2 ^ (rem + 1)) lo hi hlohi hhiL hslice
        have hpredeq : (fun a => (bitOfN a rem == 0) &&
            (a / 2 ^ (rem + 1) == c / 2 ^ (rem + 1))) =
            (fun sym => sym / 2 ^ rem == c / 2 ^ rem) := by
          funext a
          rw [matchTop_step a c rem, hcbit, Bool.and_comm]
        rw [hpredeq] at hslice2
        by_cases hif : (L.take lo).countP (fun sym => bitOfN sym rem == 0) ≥
            (L.take hi).countP (fun sym => bitOfN sym rem == 0)
        · rw [if_pos hif]
          have heq : (L.take hi).countP (fun sym => bitOfN sym rem == 0) -
              (L.take lo).countP (fun sym => bitOfN sym rem == 0) = 0 := by omega
          rw [heq, List.take_zero] at hslice2
          have hcnt : pref.count c ≤
              (pref.filter (fun sym => sym / 2 ^ rem == c / 2 ^ rem)).length := by
            rw [List.count_eq_countP, ← List.countP_eq_length_filter]
            apply List.countP_mono_left
            intro a _ ha
            have : a = c := by
              simpa using ha
            rw [this]
            simp
          rw [← hslice2] at hcnt
          have hz : pref.count c = 0 := by simpa using hcnt
          omega
        · rw [if_neg hif]
          apply ih (by omega) _ _ (by omega)
          · rw [wtSyms_length]
            calc (L.take hi).countP (fun sym => bitOfN sym rem == 0) ≤
                L.countP (fun sym => bitOfN sym rem == 0) := countP_take_le_countP _ _ _
              _ ≤ L.length := List.countP_le_length _
              _ = bwt.length := hmb
          · rw [hsyms1]
            exact hslice2
      · rw [if_neg hcbit, if_neg hcbit]
        have hcbit1 : bitOfN c rem = 1 := by
          have := bitOfN_eq_mod c rem
          omega
        have hmono : (L.take lo).countP (fun sym => !(bitOfN sym rem == 0)) ≤
            (L.take hi).countP (fun sym => !(bitOfN sym rem == 0)) :=
          countP_take_mono L _ lo hi hlohi
        have hslice2 := partition_slice_right L pref
          (fun sym => bitOfN sym rem == 0)
          (fun sym => sym / 2 ^ (rem + 1) == c / 2 ^ (rem + 1)) lo hi hlohi hhiL hslice
        have hpredeq : (fun a => !(bitOfN a rem == 0) &&
            (a / 2 ^ (rem + 1) == c / 2 ^ (rem + 1))) =
            (fun sym => sym / 2 ^ rem == c / 2 ^ rem) := by
          funext a
          rw [matchTop_step a c rem, hcbit1, Bool.and_comm]
          congr 1
          have hab := bitOfN_eq_mod a rem
          have : bitOfN a rem = 0 ∨ bitOfN a rem = 1 := by omega
          rcases this with h | h <;> rw [h] <;> rfl
        rw [hpredeq] at hslice2
        by_cases hif : L.countP (fun sym => bitOfN sym rem == 0) +
            (L.take lo).countP (fun sym => !(bitOfN sym rem == 0)) ≥
            L.countP (fun sym => bitOfN sym rem == 0) +
            (L.take hi).countP (fun sym => !(bitOfN sym rem == 0))
        · rw [if_pos hif]
          have heq : (L.countP (fun sym => bitOfN sym rem == 0) +
              (L.take hi).countP (fun sym => !(bitOfN sym rem == 0))) -
              (L.countP (fun sym => bitOfN sym rem == 0) +
              (L.take lo).countP (fun sym => !(bitOfN sym rem == 0))) = 0 := by omega
          rw [heq, List.take_zero] at hslice2
          have hcnt : pref.count c ≤
              (pref.filter (fun sym => sym / 2 ^ rem == c / 2 ^ rem)).length := by
            rw [List.count_eq_countP, ← List.countP_eq_length_filter]
            apply List.countP_mono_left
            intro a _ ha
            have : a = c := by
              simpa using ha
            rw [this]
            simp
          rw [← hslice2] at hcnt
          have hz : pref.count c = 0 := by simpa using hcnt
          omega
        · rw [if_neg hif]
          apply ih (by omega) _ _ (by omega)
          · rw [wtSyms_length]
            have h1 : (L.take hi).countP (fun sym => !(bitOfN sym rem == 0)) ≤
                L.countP (fun sym => !(bitOfN sym rem == 0)) := countP_take_le_countP _ _ _
            have h2 := countP_comp_not L (fun sym => bitOfN sym rem == 0)
            omega
          · rw [hsyms1]
            exact hslice2

/-- `WaveletTree::rank` counts occurrences of `c` in `bwt[0, i)` for every
in-range `i` (byte-valued symbols). -/
theorem wavelet_rank_eq (bwt : List Nat) (hb : ∀ x ∈ bwt, x < 256) (c : Nat) (hc : c < 256)
    (h32 : bwt.length < 2 ^ 32) (i : Nat) (hi : i ≤ bwt.length) :
    (WaveletTree.build bwt).rank c i = (bwt.take i).count c := by
  rw [WaveletTree.rank]
  have hn : (WaveletTree.build bwt).n = bwt.length := rfl
  by_cases h0 : i = 0 ∨ i > (WaveletTree.build bwt).n
  · rw [if_pos h0]
    rcases h0 with h0 | h0
    · rw [h0]
      simp
    · rw [hn] at h0
      omega
  · rw [if_neg h0]
    push_neg at h0
    have h2 : ¬ (i > (WaveletTree.build bwt).n) := not_lt.mpr h0.2
    rw [if_neg h2]
    apply rankFrom_correct bwt h32 c (bwt.take i) 8 (le_refl 8) 0 i (by omega)
    · rw [show (8 : Nat) - 8 = 0 by omega]
      exact hi
    · rw [show (8 : Nat) - 8 = 0 by omega, wtSyms, List.drop_zero, Nat.sub_zero]
      symm
      rw [List.filter_eq_self]
      intro a ha
      have haval : a < 256 := hb a (List.mem_of_mem_take ha)
      have h3 : a / 2 ^ 8 = 0 := Nat.div_eq_of_lt (by norm_num; omega)
      have h4 : c / 2 ^ 8 = 0 := Nat.div_eq_of_lt (by norm_num; omega)
      rw [h3, h4]
      rfl


/-! ### Suffix array, BWT, C-table, SSA, and the FM-index driver
(`sais.hpp` naive builder, `bwt.hpp`, `fm_index.cpp`/`fm_index.hpp`). -/

/-- `std::string operator<`: strict lexicographic order on byte strings. -/
def lexLt : List Nat → List Nat → Bool
  | [], [] => false
  | [], _ :: _ => true
  | _ :: _, [] => false
  | a :: as, b :: bs => decide (a < b) || (a == b && lexLt as bs)

/-- `w` is a leading block (prefix) of `s` — the reference predicate for the
naive occurrence count. -/
def startsB : List Nat → List Nat → Bool
  | [], _ => true
  | _ :: _, [] => false
  | a :: as, b :: bs => (a == b) && startsB as bs

/-- Ordered insertion for the comparison sort. -/
def insertLe (le : Nat → Nat → Bool) (x : Nat) : List Nat → List Nat
  | [] => [x]
  | y :: ys => if le x y then x :: y :: ys else y :: insertLe le x ys

/-- Insertion sort.  `build_sa_naive` calls `std::sort` with the strict
comparator `T.substr(a) < T.substr(b)`; all suffixes of a string are pairwise
distinct (their lengths differ), so the sorted permutation is unique and any
correct sort — this one included — produces exactly the `std::sort` output. -/
def sortLe (le : Nat → Nat → Bool) : List Nat → List Nat
  | [] => []
  | x :: xs => insertLe le x (sortLe le xs)

/-- `build_sa_naive`: the indices of `T` sorted by lexicographic suffix
order. -/
def build_sa_naive (T : List Nat) : List Nat :=
  sortLe (fun a b => !(lexLt (T.drop b) (T.drop a))) (List.range T.length)

/-- `build_bwt_from_sa`: `BWT[i] = (sa[i]==0) ? T[n-1] : T[sa[i]-1]`. -/
def build_bwt_from_sa (T : List Nat) (sa : List Nat) : List Nat :=
  sa.map (fun idx => if idx = 0 then T.getD (T.length - 1) 0 else T.getD (idx - 1) 0)

structure FMIndex where
  n : Nat
  text : List Nat
  bwt : List Nat
  C : List Nat
  wavelet : WaveletTree
  ssaStride : Nat
  ssaSamples : List Nat

/-- `FMIndex::build_from_text` with `BuildParams::ssa_stride = d`.  `C` is the
257-entry cumulative byte-frequency table (`C[c] = Σ_{b<c} freq[b]`, the
uint32 accumulator written in closed form).  The SSA loop stores
`samples[i/d] = sa[i]` for every `i < n` with `i % d == 0`; every one of the
`⌈n/d⌉` slots `m` satisfies `m*d < n`, so the closed form reads `sa[m*d]`. -/
def FMIndex.build_from_text (T : List Nat) (d : Nat) : FMIndex :=
  { n := T.length
  , text := T
  , bwt := build_bwt_from_sa T (build_sa_naive T)
  , C := (List.range 257).map (fun c =>
      (((List.range c).map (fun b => (build_bwt_from_sa T (build_sa_naive T)).count b)).sum)
        % 2 ^ 32)
  , wavelet := WaveletTree.build (build_bwt_from_sa T (build_sa_naive T))
  , ssaStride := d
  , ssaSamples := (List.range ((T.length + d - 1) / d)).map
      (fun m => (build_sa_naive T).getD (m * d) 0) }

/-- `FMIndex::occ` — delegates to the wavelet tree. -/
def FMIndex.occ (idx : FMIndex) (c i : Nat) : Nat := idx.wavelet.rank c i

/-- `FMIndex::LF(i) = C[BWT[i]] + occ(BWT[i], i)` (0 when `i` is out of
range). -/
def FMIndex.LF (idx : FMIndex) (i : Nat) : Nat :=
  if i ≥ idx.bwt.length then 0
  else idx.C.getD (idx.bwt.getD i 0) 0 + idx.occ (idx.bwt.getD i 0) i

/-- The backward-search loop shared by `count` and `locate`, processing the
pattern right to left (structural recursion; the head byte is applied last).
`none` models the early `return` taken when the interval becomes empty. -/
def FMIndex.searchRange (idx : FMIndex) : List Nat → Option (Nat × Nat)
  | [] => some (0, idx.n)
  | c :: w =>
      match idx.searchRange w with
      | none => none
      | some (sp, ep) =>
          if idx.C.getD c 0 + idx.occ c sp ≥ idx.C.getD c 0 + idx.occ c ep then none
          else some (idx.C.getD c 0 + idx.occ c sp, idx.C.getD c 0 + idx.occ c ep)

/-- `FMIndex::count`. -/
def FMIndex.count (idx : FMIndex) (p : List Nat) : Nat :=
  if p = [] then idx.n
  else if idx.n = 0 then 0
  else match idx.searchRange p with
    | none => 0
    | some (sp, ep) => ep - sp

/-- The LF walk of `FMIndex::locate`: step until the BWT position is a
multiple of the SSA stride or `steps` reaches `n`; returns the final position
and the step count. -/
def FMIndex.lfWalk (idx : FMIndex) (pos steps : Nat) : Nat × Nat :=
  if h : pos % idx.ssaStride ≠ 0 ∧ steps < idx.n
  then idx.lfWalk (idx.LF pos) (steps + 1)
  else (pos, steps)
  termination_by idx.n - steps
  decreasing_by
    omega

/-- One hit of `FMIndex::locate`: LF-walk to a sampled row, then read the
sample and add the walk length modulo `n`.  `none` models the two `throw`
branches (walk overran `n`, SSA sample index out of range). -/
def FMIndex.locateOne (idx : FMIndex) (i : Nat) : Option Nat :=
  if (idx.lfWalk i 0).2 ≥ idx.n then none
  else if (idx.lfWalk i 0).1 / idx.ssaStride ≥ idx.ssaSamples.length then none
  else some ((idx.ssaSamples.getD ((idx.lfWalk i 0).1 / idx.ssaStride) 0 +
    (idx.lfWalk i 0).2) % idx.n)

/-- `FMIndex::locate`: backward search, then recover up to `limit` text
positions.  The result vector grows by exactly one per processed row, so the
loop processes the first `min(ep - sp, limit)` rows of `[sp, ep)`. -/
def FMIndex.locate (idx : FMIndex) (p : List Nat) (limit : Nat) : Option (List Nat) :=
  if p = [] ∨ idx.n = 0 then some []
  else match idx.searchRange p with
    | none => some []
    | some (sp, ep) =>
        ((List.range' sp (ep - sp)).take limit).foldl
          (fun acc i => acc.bind (fun l => (idx.locateOne i).map (fun q => l ++ [q])))
          (some [])

/-- `FMIndex::extract(p, len) = T[p .. min(p+len, n))`, empty for `p ≥ n`. -/
def FMIndex.extract (idx : FMIndex) (p len : Nat) : List Nat :=
  if p ≥ idx.text.length then [] else (idx.text.drop p).take (min len (idx.text.length - p))

/-- Naive reference: occurrences of `p` as a substring of `T`. -/
def naiveCount (T p : List Nat) : Nat :=
  (List.range T.length).countP (fun j => startsB p (T.drop j))

/-- Naive reference: the starting positions of `p` in `T`. -/
def naivePositions (T p : List Nat) : List Nat :=
  (List.range T.length).filter (fun j => startsB p (T.drop j))

/-- The sentinel byte: the final byte of `T`. -/
def sentinelByte (T : List Nat) : Nat := T.getD (T.length - 1) 0

/-- The text ends with a unique minimal sentinel: it is nonempty and its
final byte is strictly smaller than the byte at every other position. -/
def SentinelOk (T : List Nat) : Prop :=
  T ≠ [] ∧ ∀ j, j + 1 < T.length → sentinelByte T < T.getD j 0

/-! #### Lexicographic-order lemmas -/

theorem lexLt_irrefl (l : List Nat) : lexLt l l = false := by
  induction l with
  | nil => rfl
  | cons a as ih =>
      rw [lexLt]
      simp [ih]

theorem lexLt_trans : ∀ {a b c : List Nat},
    lexLt a b = true → lexLt b c = true → lexLt a c = true := by
  intro a
  induction a with
  | nil =>
      intro b c hab hbc
      cases b with
      | nil => exact absurd hab (by rw [lexLt]; simp)
      | cons y ys =>
          cases c with
          | nil => exact absurd hbc (by rw [lexLt]; simp)
          | cons z zs => rw [lexLt]
  | cons x xs ih =>
      intro b c hab hbc
      cases b with
      | nil => exact absurd hab (by rw [lexLt]; simp)
      | cons y ys =>
          cases c with
          | nil => exact absurd hbc (by rw [lexLt]; simp)
          | cons z zs =>
              rw [lexLt] at hab hbc ⊢
              simp only [Bool.or_eq_true, Bool.and_eq_true, decide_eq_true_eq,
                beq_iff_eq] at hab hbc ⊢
              rcases hab with h1 | ⟨h1, h1t⟩
              · rcases hbc with h2 | ⟨h2, h2t⟩
                · left; omega
                · left; omega
              · rcases hbc with h2 | ⟨h2, h2t⟩
                · left; omega
                · right
                  exact ⟨by omega, ih h1t h2t⟩

theorem lexLt_total : ∀ {a b : List Nat},
    lexLt a b = false → lexLt b a = false → a = b := by
  intro a
  induction a with
  | nil =>
      intro b hab hba
      cases b with
      | nil => rfl
      | cons y ys => exact absurd hab (by rw [lexLt]; simp)
  | cons x xs ih =>
      intro b hab hba
      cases b with
      | nil => exact absurd hba (by rw [lexLt]; simp)
      | cons y ys =>
          rw [lexLt] at hab hba
          simp only [Bool.or_eq_false_iff, Bool.and_eq_false_iff, decide_eq_false_iff_not,
            beq_eq_false_iff_ne, ne_eq] at hab hba
          have hxy : x = y := by
            rcases hab.2 with h | h
            · rcases hba.2 with h2 | h2
              · omega
              · omega
            · rcases hba.2 with h2 | h2
              · omega
              · have h1 := hab.1
                have h2b := hba.1
                omega
          subst hxy
          congr 1
          rcases hab.2 with h | h
          · omega
          · rcases hba.2 with h2 | h2
            · omega
            · exact ih h h2

theorem lexLt_asymm {a b : List Nat} (h : lexLt a b = true) : lexLt b a = false := by
  cases hba : lexLt b a
  · rfl
  · have := lexLt_trans h hba
    rw [lexLt_irrefl] at this
    exact absurd this (by simp)

/-- A prefix is never lexicographically greater: `startsB w s → ¬(s < w)`. -/
theorem startsB_not_lexLt : ∀ {w s : List Nat}, startsB w s = true → lexLt s w = false := by
  intro w
  induction w with
  | nil =>
      intro s hs
      cases s with
      | nil => rfl
      | cons a as => rfl
  | cons x xs ih =>
      intro s hs
      cases s with
      | nil => exact absurd hs (by rw [startsB]; simp)
      | cons a as =>
          rw [startsB] at hs
          simp only [Bool.and_eq_true, beq_iff_eq] at hs
          rw [lexLt]
          simp only [Bool.or_eq_false_iff, Bool.and_eq_false_iff, decide_eq_false_iff_not,
            beq_eq_false_iff_ne, ne_eq]
          constructor
          · omega
          · right
            exact ih hs.2

/-- Betweenness: anything below a `w`-prefixed string is below `w` or is
itself `w`-prefixed. -/
theorem lexLt_between : ∀ {w s u : List Nat}, lexLt s u = true → startsB w u = true →
    lexLt s w = true ∨ startsB w s = true := by
  intro w
  induction w with
  | nil =>
      intro s u hsu hwu
      right
      rfl
  | cons x xs ih =>
      intro s u hsu hwu
      cases u with
      | nil => exact absurd hwu (by rw [startsB]; simp)
      | cons b bs =>
          rw [startsB] at hwu
          simp only [Bool.and_eq_true, beq_iff_eq] at hwu
          cases s with
          | nil =>
              left
              rw [lexLt]
          | cons a as =>
              rw [lexLt] at hsu
              simp only [Bool.or_eq_true, Bool.and_eq_true, decide_eq_true_eq,
                beq_iff_eq] at hsu
              rcases hsu with h | ⟨h, ht⟩
              · left
                rw [lexLt]
                simp only [Bool.or_eq_true, Bool.and_eq_true, decide_eq_true_eq,
                  beq_iff_eq]
                left
                omega
              · rcases ih ht hwu.2 with h2 | h2
                · left
                  rw [lexLt]
                  simp only [Bool.or_eq_true, Bool.and_eq_true, decide_eq_true_eq,
                    beq_iff_eq]
                  right
                  exact ⟨by omega, h2⟩
                · right
                  rw [startsB]
                  simp only [Bool.and_eq_true, beq_iff_eq]
                  exact ⟨by omega, h2⟩

/-- Decomposing a suffix at an in-range position. -/
theorem drop_cons_getD (T : List Nat) (j : Nat) (hj : j < T.length) :
    T.drop j = T.getD j 0 :: T.drop (j + 1) := by
  rw [List.getD_eq_getElem T 0 hj]
  exact List.drop_eq_getElem_cons hj


/-! #### Sorting lemmas -/

theorem insertLe_perm (le : Nat → Nat → Bool) (x : Nat) (l : List Nat) :
    (insertLe le x l).Perm (x :: l) := by
  induction l with
  | nil => exact List.Perm.refl _
  | cons y ys ih =>
      rw [insertLe]
      by_cases h : le x y
      · rw [if_pos h]
      · rw [if_neg h]
        exact List.Perm.trans (List.Perm.cons y ih) (List.Perm.swap x y ys)

theorem sortLe_perm (le : Nat → Nat → Bool) (l : List Nat) : (sortLe le l).Perm l := by
  induction l with
  | nil => exact List.Perm.refl _
  | cons x xs ih =>
      rw [sortLe]
      exact List.Perm.trans (insertLe_perm le x _) (List.Perm.cons x ih)

theorem insertLe_pairwise (le : Nat → Nat → Bool)
    (htot : ∀ a b, le a b = true ∨ le b a = true)
    (htrans : ∀ a b c, le a b = true → le b c = true → le a c = true)
    (x : Nat) (l : List Nat) (hl : l.Pairwise (fun a b => le a b = true)) :
    (insertLe le x l).Pairwise (fun a b => le a b = true) := by
  induction l with
  | nil =>
      rw [insertLe]
      exact List.pairwise_singleton _ x
  | cons y ys ih =>
      rw [List.pairwise_cons] at hl
      rw [insertLe]
      by_cases h : le x y = true
      · rw [if_pos h, List.pairwise_cons]
        constructor
        · intro z hz
          rcases List.mem_cons.mp hz with rfl | hz
          · exact h
          · exact htrans x y z h (hl.1 z hz)
        · rw [List.pairwise_cons]
          exact hl
      · have hyx : le y x = true := by
          rcases htot x y with h2 | h2
          · exact absurd h2 h
          · exact h2
        rw [if_neg h, List.pairwise_cons]
        constructor
        · intro z hz
          have hz2 : z ∈ x :: ys := (insertLe_perm le x ys).mem_iff.mp hz
          rcases List.mem_cons.mp hz2 with rfl | hz2
          · exact hyx
          · exact hl.1 z hz2
        · exact ih hl.2

theorem sortLe_pairwise (le : Nat → Nat → Bool)
    (htot : ∀ a b, le a b = true ∨ le b a = true)
    (htrans : ∀ a b c, le a b = true → le b c = true → le a c = true)
    (l : List Nat) : (sortLe le l).Pairwise (fun a b => le a b = true) := by
  induction l with
  | nil => exact List.Pairwise.nil
  | cons x xs ih =>
      rw [sortLe]
      exact insertLe_pairwise le htot htrans x _ ih

/-! #### Sorted-list counting lemmas -/

/-- In a sorted list, the prefix of length `countP P` is exactly the
`P`-filter, whenever `P` is downward closed along the order. -/
theorem take_countP_eq_filter (l : List Nat) (R : Nat → Nat → Prop) (P : Nat → Bool)
    (hsort : l.Pairwise R)
    (hdc : ∀ a b, a ∈ l → b ∈ l → R a b → P b = true → P a = true) :
    l.take (l.countP P) = l.filter P := by
  induction l with
  | nil => rfl
  | cons x xs ih =>
      rw [List.pairwise_cons] at hsort
      by_cases hx : P x = true
      · rw [List.countP_cons, hx, if_pos rfl, List.take_succ_cons, List.filter_cons,
          if_pos hx]
        congr 1
        exact ih hsort.2 (fun a b ha hb hr hp =>
          hdc a b (List.mem_cons_of_mem x ha) (List.mem_cons_of_mem x hb) hr hp)
      · have hnone : ∀ a ∈ xs, ¬ P a = true := by
          intro a ha hpa
          exact hx (hdc x a (List.mem_cons_self x xs) (List.mem_cons_of_mem x ha)
            (hsort.1 a ha) hpa)
        have hcnt : (x :: xs).countP P = 0 := by
          rw [List.countP_eq_zero]
          intro a ha
          rcases List.mem_cons.mp ha with rfl | ha
          · exact hx
          · exact hnone a ha
        rw [hcnt, List.take_zero]
        symm
        rw [List.filter_eq_nil_iff]
        intro a ha
        rcases List.mem_cons.mp ha with rfl | ha
        · exact hx
        · exact hnone a ha

/-- In a strictly sorted list, the number of elements below the element at
position `k` is exactly `k`. -/
theorem countP_below_getElem (l : List Nat) (Rb : Nat → Nat → Bool)
    (hsort : l.Pairwise (fun a b => Rb a b = true))
    (hasym : ∀ a b, Rb a b = true → Rb b a = false)
    (hirr : ∀ a, Rb a a = false)
    (k : Nat) (hk : k < l.length) :
    l.countP (fun x => Rb x (l.getD k 0)) = k := by
  have hpair := List.pairwise_iff_getElem.mp hsort
  have hy : l.getD k 0 = l[k] := List.getD_eq_getElem l 0 hk
  obtain ⟨y, hy2⟩ : ∃ y, y = l[k] := ⟨l[k], rfl⟩
  rw [hy, ← hy2]
  have hsplit : l.countP (fun x => Rb x y) =
      (l.take k).countP (fun x => Rb x y) + (l.drop k).countP (fun x => Rb x y) := by
    conv_lhs => rw [← List.take_append_drop k l]
    rw [List.countP_append]
  rw [hsplit]
  have h1 : (l.take k).countP (fun x => Rb x y) = (l.take k).length := by
    rw [List.countP_eq_length]
    intro a ha
    obtain ⟨i, hi, hai⟩ := List.mem_iff_getElem.mp ha
    rw [List.getElem_take] at hai
    rw [← hai, hy2]
    rw [List.length_take] at hi
    exact hpair i k (by omega) hk (by omega)
  have h2 : (l.drop k).countP (fun x => Rb x y) = 0 := by
    rw [List.countP_eq_zero]
    intro a ha
    obtain ⟨i, hi, hai⟩ := List.mem_iff_getElem.mp ha
    rw [List.getElem_drop] at hai
    rw [← hai, hy2]
    rcases Nat.eq_zero_or_pos i with rfl | hipos
    · have hkk : l[k + 0] = l[k] := rfl
      rw [hkk]
      simp [hirr]
    · have h3 := hpair k (k + i) hk (by rw [List.length_drop] at hi; omega) (by omega)
      rw [hasym _ _ h3]
      simp
  have hlen : (l.take k).length = k := by
    rw [List.length_take]
    omega
  omega

/-! #### Suffix-array facts -/

theorem range_map_getD (l : List Nat) (m : Nat) (hm : m ≤ l.length) :
    (List.range m).map (fun i => l.getD i 0) = l.take m := by
  apply List.ext_getElem
  · simp [hm]
  · intro i h1 h2
    simp only [List.getElem_map, List.getElem_range, List.getElem_take]
    rw [List.length_map, List.length_range] at h1
    exact List.getD_eq_getElem l 0 (by omega)

theorem range'_map_getD (l : List Nat) (a m : Nat) (hm : a + m ≤ l.length) :
    (List.range' a m).map (fun i => l.getD i 0) = (l.drop a).take m := by
  apply List.ext_getElem
  · simp
    omega
  · intro i h1 h2
    rw [List.length_map, List.length_range'] at h1
    simp only [List.getElem_map, List.getElem_range', List.getElem_take, List.getElem_drop]
    rw [List.getD_eq_getElem l 0 (by omega)]
    congr 1
    omega

theorem sa_perm (T : List Nat) : (build_sa_naive T).Perm (List.range T.length) :=
  sortLe_perm _ _

theorem sa_length (T : List Nat) : (build_sa_naive T).length = T.length := by
  rw [(sa_perm T).length_eq, List.length_range]

theorem sa_nodup (T : List Nat) : (build_sa_naive T).Nodup :=
  ((sa_perm T).nodup_iff).mpr (List.nodup_range _)

theorem sa_mem_lt (T : List Nat) (x : Nat) (hx : x ∈ build_sa_naive T) : x < T.length :=
  List.mem_range.mp ((sa_perm T).mem_iff.mp hx)

theorem saLe_total (T : List Nat) (a b : Nat) :
    (!(lexLt (T.drop b) (T.drop a))) = true ∨ (!(lexLt (T.drop a) (T.drop b))) = true := by
  cases h : lexLt (T.drop b) (T.drop a)
  · left
    rfl
  · right
    rw [lexLt_asymm h]
    rfl

theorem saLe_trans (T : List Nat) (a b c : Nat)
    (h1 : (!(lexLt (T.drop b) (T.drop a))) = true)
    (h2 : (!(lexLt (T.drop c) (T.drop b))) = true) :
    (!(lexLt (T.drop c) (T.drop a))) = true := by
  simp only [Bool.not_eq_true'] at h1 h2 ⊢
  cases hac : lexLt (T.drop c) (T.drop a)
  · rfl
  · cases hab : lexLt (T.drop a) (T.drop b)
    · have heq := lexLt_total hab h1
      rw [← heq, hac] at h2
      exact absurd h2 (by simp)
    · have hcb := lexLt_trans hac hab
      rw [hcb] at h2
      exact absurd h2 (by simp)

theorem sa_sorted_weak (T : List Nat) :
    (build_sa_naive T).Pairwise (fun a b => lexLt (T.drop b) (T.drop a) = false) := by
  have h := sortLe_pairwise (fun a b => !(lexLt (T.drop b) (T.drop a)))
    (saLe_total T) (fun a b c => saLe_trans T a b c) (List.range T.length)
  exact h.imp (fun hab => by simpa using hab)

theorem sa_sorted (T : List Nat) :
    (build_sa_naive T).Pairwise (fun a b => lexLt (T.drop a) (T.drop b) = true) := by
  have h3 := (sa_sorted_weak T).and (sa_nodup T)
  refine List.Pairwise.imp_of_mem ?_ h3
  intro a b ha hb hab
  obtain ⟨hw, hne⟩ := hab
  cases hlt : lexLt (T.drop a) (T.drop b)
  · have heq := lexLt_total hlt hw
    have ha2 := sa_mem_lt T a ha
    have hb2 := sa_mem_lt T b hb
    have hlen : (T.drop a).length = (T.drop b).length := by rw [heq]
    rw [List.length_drop, List.length_drop] at hlen
    omega
  · rfl

/-! #### BWT facts -/

/-- The per-row character map of `build_bwt_from_sa`, named for reuse. -/
def bwtChar (T : List Nat) (idx : Nat) : Nat :=
  if idx = 0 then T.getD (T.length - 1) 0 else T.getD (idx - 1) 0

theorem build_bwt_eq (T sa : List Nat) :
    build_bwt_from_sa T sa = sa.map (bwtChar T) := rfl

theorem bwt_length (T : List Nat) :
    (build_bwt_from_sa T (build_sa_naive T)).length = T.length := by
  rw [build_bwt_eq, List.length_map, sa_length]

theorem bwt_perm (T : List Nat) (hT : T ≠ []) :
    (build_bwt_from_sa T (build_sa_naive T)).Perm T := by
  rw [build_bwt_eq]
  refine ((sa_perm T).map _).trans ?_
  have hn : 0 < T.length := List.length_pos.mpr hT
  obtain ⟨m, hm⟩ : ∃ m, T.length = m + 1 := ⟨T.length - 1, by omega⟩
  rw [hm, List.range_succ_eq_map, List.map_cons, List.map_map]
  have htail : (List.range m).map (bwtChar T ∘ Nat.succ) = T.take m := by
    rw [← range_map_getD T m (by omega)]
    apply List.map_congr_left
    intro i hi
    show bwtChar T (i + 1) = T.getD i 0
    rw [bwtChar]
    simp
  rw [htail]
  have hhead : bwtChar T 0 = T.getD m 0 := by
    rw [bwtChar, if_pos rfl, hm]
    simp
  rw [hhead]
  have hT2 : T = T.take m ++ [T.getD m 0] := by
    have hcat := List.take_concat_get T m (by omega)
    rw [List.concat_eq_append] at hcat
    have htk : List.take (m + 1) T = T := List.take_of_length_le (by omega)
    rw [htk] at hcat
    rw [List.getD_eq_getElem T 0 (by omega), hcat]
  conv_rhs => rw [hT2]
  rw [← List.singleton_append]
  exact List.perm_append_comm

theorem bwt_mem_lt (T : List Nat) (hT : T ≠ []) (hb : ∀ x ∈ T, x < 256) :
    ∀ x ∈ build_bwt_from_sa T (build_sa_naive T), x < 256 := by
  intro x hx
  exact hb x ((bwt_perm T hT).mem_iff.mp hx)

/-! #### Counting helpers -/

theorem countP_or_disjoint (l : List Nat) (p q : Nat → Bool)
    (hdisj : ∀ x ∈ l, ¬(p x = true ∧ q x = true)) :
    l.countP (fun x => p x || q x) = l.countP p + l.countP q := by
  induction l with
  | nil => rfl
  | cons x xs ih =>
      have ih2 := ih (fun a ha => hdisj a (List.mem_cons_of_mem x ha))
      have hx := hdisj x (List.mem_cons_self x xs)
      simp only [List.countP_cons, ih2]
      cases hp : p x
      · cases hq : q x
        · simp [hp, hq] <;> omega
        · simp [hp, hq] <;> omega
      · have hq : q x = false := by
          cases hqx : q x
          · rfl
          · exact absurd ⟨hp, hqx⟩ hx
        simp [hp, hq] <;> omega

theorem filter_or_perm_append (l : List Nat) (p q : Nat → Bool)
    (hdisj : ∀ x ∈ l, ¬(p x = true ∧ q x = true)) :
    (l.filter (fun x => p x || q x)).Perm (l.filter p ++ l.filter q) := by
  induction l with
  | nil => exact List.Perm.refl _
  | cons x xs ih =>
      have ih2 := ih (fun a ha => hdisj a (List.mem_cons_of_mem x ha))
      have hx := hdisj x (List.mem_cons_self x xs)
      cases hp : p x
      · cases hq : q x
        · simp only [List.filter_cons, hp, hq]
          simpa using ih2
        · simp only [List.filter_cons, hp, hq]
          simp only [Bool.false_or, if_pos rfl, if_neg (by simp : ¬false = true)]
          exact (List.Perm.cons x ih2).trans List.perm_middle.symm
      · have hq : q x = false := by
          cases hqx : q x
          · rfl
          · exact absurd ⟨hp, hqx⟩ hx
        simp only [List.filter_cons, hp, hq]
        simp only [Bool.true_or, if_pos rfl, if_neg (by simp : ¬false = true),
          List.cons_append]
        exact List.Perm.cons x ih2

theorem countP_lt_succ (l : List Nat) (c : Nat) :
    l.countP (fun x => decide (x < c + 1)) =
      l.countP (fun x => decide (x < c)) + l.count c := by
  induction l with
  | nil => rfl
  | cons x xs ih =>
      simp only [List.countP_cons, List.count_cons, ih, decide_eq_true_eq, beq_iff_eq]
      split_ifs <;> omega

theorem sum_counts (l : List Nat) (c : Nat) :
    ((List.range c).map (fun b => l.count b)).sum = l.countP (fun x => decide (x < c)) := by
  induction c with
  | zero => simp
  | succ c ih =>
      rw [List.range_succ, List.map_append, List.sum_append, ih, countP_lt_succ]
      simp

/-! #### C-table and occ -/

theorem C_getD (T : List Nat) (d : Nat) (h32 : T.length < 2 ^ 32) (hT : T ≠ [])
    (c : Nat) (hc : c < 257) :
    (FMIndex.build_from_text T d).C.getD c 0 = T.countP (fun x => decide (x < c)) := by
  have hC : (FMIndex.build_from_text T d).C = (List.range 257).map (fun c =>
      (((List.range c).map
        (fun b => (build_bwt_from_sa T (build_sa_naive T)).count b)).sum) % 2 ^ 32) := rfl
  rw [hC, List.getD_eq_getElem _ 0 (by simpa using hc)]
  simp only [List.getElem_map, List.getElem_range]
  rw [sum_counts, (bwt_perm T hT).countP_eq]
  have hle : T.countP (fun x => decide (x < c)) ≤ T.length := List.countP_le_length _
  exact Nat.mod_eq_of_lt (by omega)

theorem occ_eq (T : List Nat) (d : Nat) (hb : ∀ x ∈ T, x < 256) (hT : T ≠ [])
    (h32 : T.length < 2 ^ 32) (c : Nat) (hc : c < 256) (x : Nat) (hx : x ≤ T.length) :
    (FMIndex.build_from_text T d).occ c x
      = ((build_bwt_from_sa T (build_sa_naive T)).take x).count c := by
  have hw : (FMIndex.build_from_text T d).wavelet
      = WaveletTree.build (build_bwt_from_sa T (build_sa_naive T)) := rfl
  rw [FMIndex.occ, hw]
  exact wavelet_rank_eq _ (bwt_mem_lt T hT hb) c hc
    (by rw [bwt_length]; exact h32) x (by rw [bwt_length]; exact hx)

theorem countP_congr_eq (l : List Nat) (p q : Nat → Bool) (h : ∀ x ∈ l, p x = q x) :
    l.countP p = l.countP q :=
  List.countP_congr (fun x hx => by rw [h x hx])

/-- Number of suffixes of `T` lexicographically below `w` — the lower end of
the `w`-interval in suffix order. -/
def ltCnt (T w : List Nat) : Nat :=
  (List.range T.length).countP (fun j => lexLt (T.drop j) w)

theorem sa_countP (T : List Nat) (P : Nat → Bool) :
    (build_sa_naive T).countP P = (List.range T.length).countP P :=
  (sa_perm T).countP_eq P

theorem sa_take_filter (T : List Nat) (P : Nat → Bool)
    (hdc : ∀ a b, lexLt (T.drop a) (T.drop b) = true → P b = true → P a = true) :
    (build_sa_naive T).take ((build_sa_naive T).countP P)
      = (build_sa_naive T).filter P :=
  take_countP_eq_filter _ (fun a b => lexLt (T.drop a) (T.drop b) = true) P
    (sa_sorted T) (fun a b _ _ hr hp => hdc a b hr hp)

theorem countP_T_range (T : List Nat) (p : Nat → Bool) :
    T.countP p = (List.range T.length).countP (fun j => p (T.getD j 0)) := by
  have h := range_map_getD T T.length (le_refl _)
  rw [List.take_length] at h
  conv_lhs => rw [← h]
  rw [List.countP_map]
  rfl

/-- Counting a character among the BWT rows whose suffix satisfies a
downward-closed predicate. -/
theorem bwt_take_count (T : List Nat) (P : Nat → Bool) (c : Nat)
    (hdc : ∀ a b, lexLt (T.drop a) (T.drop b) = true → P b = true → P a = true) :
    ((build_bwt_from_sa T (build_sa_naive T)).take
        ((List.range T.length).countP P)).count c
      = (List.range T.length).countP (fun j => (bwtChar T j == c) && P j) := by
  rw [build_bwt_eq, ← List.map_take, ← sa_countP T P, sa_take_filter T P hdc]
  rw [List.count_eq_countP, List.countP_map, List.countP_filter]
  rw [sa_countP]
  rfl

theorem lexLt_head (T : List Nat) (j c : Nat) (w : List Nat) (hj : j < T.length) :
    lexLt (T.drop j) (c :: w)
      = (decide (T.getD j 0 < c) || ((T.getD j 0 == c) && lexLt (T.drop (j + 1)) w)) := by
  rw [drop_cons_getD T j hj, lexLt]

theorem startsB_head (T : List Nat) (j c : Nat) (w : List Nat) (hj : j < T.length) :
    startsB (c :: w) (T.drop j) = ((c == T.getD j 0) && startsB w (T.drop (j + 1))) := by
  rw [drop_cons_getD T j hj, startsB]

/-- Shifting the BWT-character count to a text-character count: for a
non-sentinel `c`, row `j` contributes `BWT` character `c` exactly when text
position `j - 1` (shifted to `j' = j - 1`) holds `c`. -/
theorem bwt_countP_shift (T : List Nat) (hs : SentinelOk T) (c : Nat)
    (hcs : c ≠ sentinelByte T) (Q : Nat → Bool) :
    (List.range T.length).countP (fun j => (bwtChar T j == c) && Q j)
      = (List.range T.length).countP (fun j => (T.getD j 0 == c) && Q (j + 1)) := by
  have hT : T ≠ [] := hs.1
  have hn : 0 < T.length := List.length_pos.mpr hT
  obtain ⟨m, hm⟩ : ∃ m, T.length = m + 1 := ⟨T.length - 1, by omega⟩
  have hsent : sentinelByte T = T.getD m 0 := by
    rw [sentinelByte, hm]
    simp
  have hmc : (T.getD m 0 == c) = false := by
    rw [beq_eq_false_iff_ne]
    rw [hsent] at hcs
    omega
  have hhead : ((bwtChar T 0 == c) && Q 0) = false := by
    have h0 : bwtChar T 0 = T.getD m 0 := by
      rw [bwtChar, if_pos rfl, hm]
      simp
    rw [h0, hmc, Bool.false_and]
  have htail : ((T.getD m 0 == c) && Q (m + 1)) = false := by
    rw [hmc, Bool.false_and]
  rw [hm]
  conv_lhs => rw [List.range_succ_eq_map]
  conv_rhs => rw [List.range_succ]
  simp only [List.countP_cons, List.countP_map, List.countP_append, List.countP_nil]
  rw [hhead, htail]
  simp only [Bool.false_eq_true, if_false, Nat.add_zero, Nat.zero_add]
  apply countP_congr_eq
  intro j hj
  show ((bwtChar T (j + 1) == c) && Q (j + 1)) = ((T.getD j 0 == c) && Q (j + 1))
  rw [bwtChar, if_neg (by omega)]
  simp

/-! #### The backward-search step -/

theorem countP_T_lt (T : List Nat) (c : Nat) :
    T.countP (fun x => decide (x < c))
      = (List.range T.length).countP (fun j => decide (T.getD j 0 < c)) := by
  rw [countP_T_range]

theorem ltCnt_le (T w : List Nat) : ltCnt T w ≤ T.length := by
  have h1 : (List.range T.length).countP (fun j => lexLt (T.drop j) w)
      ≤ (List.range T.length).length := List.countP_le_length _
  rw [List.length_range] at h1
  exact h1

theorem naiveCount_le (T w : List Nat) : naiveCount T w ≤ T.length := by
  have h1 : (List.range T.length).countP (fun j => startsB w (T.drop j))
      ≤ (List.range T.length).length := List.countP_le_length _
  rw [List.length_range] at h1
  exact h1

theorem ltCnt_cons (T : List Nat) (c : Nat) (w : List Nat) :
    ltCnt T (c :: w)
      = (List.range T.length).countP (fun j => decide (T.getD j 0 < c))
        + (List.range T.length).countP
            (fun j => (T.getD j 0 == c) && lexLt (T.drop (j + 1)) w) := by
  simp only [ltCnt]
  rw [countP_congr_eq _ _
    (fun j => (decide (T.getD j 0 < c) || ((T.getD j 0 == c) && lexLt (T.drop (j + 1)) w)))
    (fun j hj => lexLt_head T j c w (List.mem_range.mp hj))]
  apply countP_or_disjoint
  intro j hj hcon
  obtain ⟨h1, h2⟩ := hcon
  simp only [decide_eq_true_eq] at h1
  rw [Bool.and_eq_true, beq_iff_eq] at h2
  omega

theorem naiveCount_cons (T : List Nat) (c : Nat) (w : List Nat) :
    naiveCount T (c :: w)
      = (List.range T.length).countP
          (fun j => (T.getD j 0 == c) && startsB w (T.drop (j + 1))) := by
  simp only [naiveCount]
  apply countP_congr_eq
  intro j hj
  rw [startsB_head T j c w (List.mem_range.mp hj), Bool.beq_comm]

theorem step_lt (T : List Nat) (d : Nat) (hb : ∀ x ∈ T, x < 256) (hs : SentinelOk T)
    (h32 : T.length < 2 ^ 32) (c : Nat) (hc : c < 256) (hcs : c ≠ sentinelByte T)
    (w : List Nat) :
    (FMIndex.build_from_text T d).C.getD c 0
      + (FMIndex.build_from_text T d).occ c (ltCnt T w) = ltCnt T (c :: w) := by
  have hT : T ≠ [] := hs.1
  rw [occ_eq T d hb hT h32 c hc _ (ltCnt_le T w), C_getD T d h32 hT c (by omega)]
  have hdc : ∀ a b, lexLt (T.drop a) (T.drop b) = true →
      lexLt (T.drop b) w = true → lexLt (T.drop a) w = true :=
    fun a b hab hbw => lexLt_trans hab hbw
  simp only [ltCnt]
  rw [bwt_take_count T _ c hdc, bwt_countP_shift T hs c hcs]
  rw [countP_T_lt T c]
  have e2 := ltCnt_cons T c w
  simp only [ltCnt] at e2
  rw [e2]

theorem step_le (T : List Nat) (d : Nat) (hb : ∀ x ∈ T, x < 256) (hs : SentinelOk T)
    (h32 : T.length < 2 ^ 32) (c : Nat) (hc : c < 256) (hcs : c ≠ sentinelByte T)
    (w : List Nat) :
    (FMIndex.build_from_text T d).C.getD c 0
      + (FMIndex.build_from_text T d).occ c (ltCnt T w + naiveCount T w)
      = ltCnt T (c :: w) + naiveCount T (c :: w) := by
  have hT : T ≠ [] := hs.1
  have hdisj : ∀ j ∈ List.range T.length,
      ¬(lexLt (T.drop j) w = true ∧ startsB w (T.drop j) = true) := by
    intro j hj hcon
    have h2 := startsB_not_lexLt hcon.2
    rw [hcon.1] at h2
    exact absurd h2 (by simp)
  have hsum : ltCnt T w + naiveCount T w
      = (List.range T.length).countP
          (fun j => lexLt (T.drop j) w || startsB w (T.drop j)) := by
    simp only [ltCnt, naiveCount]
    exact (countP_or_disjoint _ _ _ hdisj).symm
  have hle : (List.range T.length).countP
      (fun j => lexLt (T.drop j) w || startsB w (T.drop j)) ≤ T.length := by
    have h1 : (List.range T.length).countP
        (fun j => lexLt (T.drop j) w || startsB w (T.drop j))
        ≤ (List.range T.length).length := List.countP_le_length _
    rw [List.length_range] at h1
    exact h1
  rw [hsum, occ_eq T d hb hT h32 c hc _ hle, C_getD T d h32 hT c (by omega)]
  have hdc : ∀ a b, lexLt (T.drop a) (T.drop b) = true →
      (lexLt (T.drop b) w || startsB w (T.drop b)) = true →
      (lexLt (T.drop a) w || startsB w (T.drop a)) = true := by
    intro a b hab hb2
    rw [Bool.or_eq_true] at hb2 ⊢
    rcases hb2 with h | h
    · left
      exact lexLt_trans hab h
    · rcases lexLt_between hab h with h2 | h2
      · left
        exact h2
      · right
        exact h2
  rw [bwt_take_count T _ c hdc, bwt_countP_shift T hs c hcs]
  have edist : (List.range T.length).countP
      (fun j => (T.getD j 0 == c) && (lexLt (T.drop (j + 1)) w || startsB w (T.drop (j + 1))))
      = (List.range T.length).countP
          (fun j => (T.getD j 0 == c) && lexLt (T.drop (j + 1)) w)
        + (List.range T.length).countP
            (fun j => (T.getD j 0 == c) && startsB w (T.drop (j + 1))) := by
    rw [countP_congr_eq _ _
      (fun j => (((T.getD j 0 == c) && lexLt (T.drop (j + 1)) w)
        || ((T.getD j 0 == c) && startsB w (T.drop (j + 1)))))
      (fun j hj => Bool.and_or_distrib_left _ _ _)]
    apply countP_or_disjoint
    intro j hj hcon
    obtain ⟨h1, h2⟩ := hcon
    rw [Bool.and_eq_true] at h1 h2
    have h3 := startsB_not_lexLt h2.2
    rw [h1.2] at h3
    exact absurd h3 (by simp)
  rw [edist, countP_T_lt T c, ltCnt_cons T c w, naiveCount_cons T c w]
  omega

/-! #### Backward search -/

theorem naiveCount_cons_zero (T : List Nat) (c : Nat) (w : List Nat) (hw : w ≠ [])
    (h0 : naiveCount T w = 0) : naiveCount T (c :: w) = 0 := by
  rw [naiveCount_cons, List.countP_eq_zero]
  intro j hj
  simp only [naiveCount, List.countP_eq_zero] at h0
  by_cases hj1 : j + 1 < T.length
  · have h2 := h0 (j + 1) (List.mem_range.mpr hj1)
    simp only [Bool.and_eq_true, not_and]
    intro _
    exact h2
  · have hdrop : T.drop (j + 1) = [] := by
      apply List.drop_eq_nil_of_le
      have := List.mem_range.mp hj
      omega
    rw [hdrop]
    cases w with
    | nil => exact absurd rfl hw
    | cons a as => simp [startsB]

theorem searchRange_eq (T : List Nat) (d : Nat) (hb : ∀ x ∈ T, x < 256)
    (hs : SentinelOk T) (h32 : T.length < 2 ^ 32) :
    ∀ w : List Nat, (∀ c ∈ w, c < 256 ∧ c ≠ sentinelByte T) →
      (FMIndex.build_from_text T d).searchRange w
        = if w ≠ [] ∧ naiveCount T w = 0 then none
          else some (ltCnt T w, ltCnt T w + naiveCount T w) := by
  intro w
  induction w with
  | nil =>
      intro _
      rw [FMIndex.searchRange, if_neg (by simp)]
      have h1 : ltCnt T [] = 0 := by
        simp only [ltCnt]
        rw [List.countP_eq_zero]
        intro j hj
        cases hd : T.drop j <;> simp [lexLt]
      have h2 : naiveCount T [] = T.length := by
        simp only [naiveCount]
        have hall : ∀ j ∈ List.range T.length, (startsB [] (T.drop j)) = true :=
          fun j hj => rfl
        rw [List.countP_eq_length.mpr hall, List.length_range]
      have hn : (FMIndex.build_from_text T d).n = T.length := rfl
      rw [h1, h2, hn]
      simp
  | cons c w ih =>
      intro hcw
      have hc := hcw c (List.mem_cons_self c w)
      have hw : ∀ x ∈ w, x < 256 ∧ x ≠ sentinelByte T :=
        fun x hx => hcw x (List.mem_cons_of_mem c hx)
      rw [FMIndex.searchRange, ih hw]
      by_cases hnone : w ≠ [] ∧ naiveCount T w = 0
      · rw [if_pos hnone, if_pos ⟨by simp, naiveCount_cons_zero T c w hnone.1 hnone.2⟩]
      · rw [if_neg hnone]
        have e1 := step_lt T d hb hs h32 c hc.1 hc.2 w
        have e2 := step_le T d hb hs h32 c hc.1 hc.2 w
        show (if (FMIndex.build_from_text T d).C.getD c 0
              + (FMIndex.build_from_text T d).occ c (ltCnt T w)
            ≥ (FMIndex.build_from_text T d).C.getD c 0
              + (FMIndex.build_from_text T d).occ c (ltCnt T w + naiveCount T w)
          then none
          else some ((FMIndex.build_from_text T d).C.getD c 0
              + (FMIndex.build_from_text T d).occ c (ltCnt T w),
            (FMIndex.build_from_text T d).C.getD c 0
              + (FMIndex.build_from_text T d).occ c (ltCnt T w + naiveCount T w)))
          = if c :: w ≠ [] ∧ naiveCount T (c :: w) = 0 then none
            else some (ltCnt T (c :: w), ltCnt T (c :: w) + naiveCount T (c :: w))
        by_cases hz : naiveCount T (c :: w) = 0
        · rw [if_pos (by rw [e1, e2, hz]; omega), if_pos ⟨by simp, hz⟩]
        · rw [if_neg (by rw [e1, e2]; omega), if_neg (fun hcon => hz hcon.2), e1, e2]

theorem count_eq_naive (T : List Nat) (d : Nat) (hb : ∀ x ∈ T, x < 256)
    (hs : SentinelOk T) (h32 : T.length < 2 ^ 32) (p : List Nat) (hp : p ≠ [])
    (hpc : ∀ c ∈ p, c < 256 ∧ c ≠ sentinelByte T) :
    (FMIndex.build_from_text T d).count p = naiveCount T p := by
  rw [FMIndex.count, if_neg hp]
  have hn0 : ¬ (FMIndex.build_from_text T d).n = 0 := by
    have he : (FMIndex.build_from_text T d).n = T.length := rfl
    rw [he]
    have := List.length_pos.mpr hs.1
    omega
  rw [if_neg hn0, searchRange_eq T d hb hs h32 p hpc]
  by_cases hz : naiveCount T p = 0
  · rw [if_pos ⟨hp, hz⟩, hz]
  · rw [if_neg (fun hcon => hz hcon.2)]
    show ltCnt T p + naiveCount T p - ltCnt T p = naiveCount T p
    omega

/-! #### LF mapping and the suffix-array rank of a text position -/

theorem sa_getD_inj (T : List Nat) (i k : Nat) (hi : i < (build_sa_naive T).length)
    (hk : k < (build_sa_naive T).length)
    (h : (build_sa_naive T).getD i 0 = (build_sa_naive T).getD k 0) : i = k := by
  rw [List.getD_eq_getElem _ 0 hi, List.getD_eq_getElem _ 0 hk] at h
  exact (sa_nodup T).getElem_inj_iff.mp h

theorem sa_rank_getD (T : List Nat) (j : Nat) (hj : j < T.length) :
    ltCnt T (T.drop j) < T.length ∧
    (build_sa_naive T).getD (ltCnt T (T.drop j)) 0 = j := by
  have hjmem : j ∈ build_sa_naive T := (sa_perm T).mem_iff.mpr (List.mem_range.mpr hj)
  obtain ⟨k, hk, hkj⟩ := List.mem_iff_getElem.mp hjmem
  have hcnt := countP_below_getElem (build_sa_naive T)
    (fun a b => lexLt (T.drop a) (T.drop b)) (sa_sorted T)
    (fun a b h => lexLt_asymm h) (fun a => lexLt_irrefl _) k hk
  have hgd : (build_sa_naive T).getD k 0 = j := by
    rw [List.getD_eq_getElem _ 0 hk, hkj]
  rw [hgd] at hcnt
  have hlt : ltCnt T (T.drop j) = k := by
    rw [ltCnt, ← sa_countP]
    exact hcnt
  constructor
  · rw [hlt, ← sa_length T]
    exact hk
  · rw [hlt]
    exact hgd

theorem ltCnt_last (T : List Nat) (hs : SentinelOk T) :
    ltCnt T (T.drop (T.length - 1)) = 0 := by
  have hT := hs.1
  have hn : 0 < T.length := List.length_pos.mpr hT
  simp only [ltCnt]
  rw [List.countP_eq_zero]
  intro x hx
  have hx2 := List.mem_range.mp hx
  have hd1 : T.drop (T.length - 1) = [sentinelByte T] := by
    rw [drop_cons_getD T (T.length - 1) (by omega)]
    have hnil : T.drop (T.length - 1 + 1) = [] := List.drop_eq_nil_of_le (by omega)
    rw [hnil, sentinelByte]
  rw [hd1, drop_cons_getD T x hx2, lexLt]
  simp only [Bool.or_eq_true, decide_eq_true_eq, Bool.and_eq_true, beq_iff_eq, not_or,
    not_and]
  constructor
  · by_cases hxl : x = T.length - 1
    · have he : sentinelByte T = T.getD x 0 := by
        rw [sentinelByte, hxl]
      omega
    · have := hs.2 x (by omega)
      omega
  · intro _
    cases hxx : T.drop (x + 1) <;> simp [lexLt]

theorem sa_zero (T : List Nat) (hs : SentinelOk T) :
    (build_sa_naive T).getD 0 0 = T.length - 1 := by
  have hn : 0 < T.length := List.length_pos.mpr hs.1
  have h := (sa_rank_getD T (T.length - 1) (by omega)).2
  rw [ltCnt_last T hs] at h
  exact h

theorem sa_getD_lt (T : List Nat) (k : Nat) (hk : k < T.length) :
    (build_sa_naive T).getD k 0 < T.length := by
  have hk2 : k < (build_sa_naive T).length := by
    rw [sa_length]
    exact hk
  rw [List.getD_eq_getElem _ 0 hk2]
  exact sa_mem_lt T _ (List.getElem_mem hk2)

theorem sentinel_lt (T : List Nat) (hb : ∀ x ∈ T, x < 256) (hT : T ≠ []) :
    sentinelByte T < 256 := by
  have hn : 0 < T.length := List.length_pos.mpr hT
  have hmem : T.getD (T.length - 1) 0 ∈ T := by
    rw [List.getD_eq_getElem _ 0 (by omega)]
    exact List.getElem_mem (by omega)
  exact hb _ hmem

theorem LF_sa (T : List Nat) (d : Nat) (hb : ∀ x ∈ T, x < 256) (hs : SentinelOk T)
    (h32 : T.length < 2 ^ 32) (k : Nat) (hk : k < T.length) :
    (FMIndex.build_from_text T d).LF k < T.length ∧
    (build_sa_naive T).getD ((FMIndex.build_from_text T d).LF k) 0
      = ((build_sa_naive T).getD k 0 + T.length - 1) % T.length := by
  have hT : T ≠ [] := hs.1
  have hn : 0 < T.length := List.length_pos.mpr hT
  have hj : (build_sa_naive T).getD k 0 < T.length := sa_getD_lt T k hk
  have hbwtlen : (FMIndex.build_from_text T d).bwt.length = T.length := bwt_length T
  have hbwtk : (FMIndex.build_from_text T d).bwt.getD k 0
      = bwtChar T ((build_sa_naive T).getD k 0) := by
    show (build_bwt_from_sa T (build_sa_naive T)).getD k 0 = _
    rw [build_bwt_eq,
      List.getD_eq_getElem _ 0 (by rw [List.length_map, sa_length]; exact hk),
      List.getElem_map,
      List.getD_eq_getElem _ 0 (by rw [sa_length]; exact hk)]
  rw [FMIndex.LF, if_neg (by omega), hbwtk]
  by_cases hj0 : (build_sa_naive T).getD k 0 = 0
  · -- the sentinel row: LF k = 0
    rw [hj0]
    have hcsent : bwtChar T 0 = sentinelByte T := by
      rw [bwtChar, if_pos rfl, sentinelByte]
    rw [hcsent]
    have hC0 : (FMIndex.build_from_text T d).C.getD (sentinelByte T) 0 = 0 := by
      rw [C_getD T d h32 hT _ (by have := sentinel_lt T hb hT; omega), countP_T_range,
        List.countP_eq_zero]
      intro x hx
      have hx2 := List.mem_range.mp hx
      simp only [decide_eq_true_eq, not_lt]
      by_cases hxl : x = T.length - 1
      · have he : sentinelByte T = T.getD x 0 := by
          rw [sentinelByte, hxl]
        omega
      · have := hs.2 x (by omega)
        omega
    have hocc0 : (FMIndex.build_from_text T d).occ (sentinelByte T) k = 0 := by
      rw [occ_eq T d hb hT h32 _ (sentinel_lt T hb hT) k (by omega)]
      rw [List.count_eq_zero]
      intro hmem
      rw [build_bwt_eq, ← List.map_take] at hmem
      obtain ⟨x, hx, hxc⟩ := List.mem_map.mp hmem
      obtain ⟨i, hi, hxi⟩ := List.mem_iff_getElem.mp hx
      rw [List.length_take] at hi
      have hilen : i < (build_sa_naive T).length := by omega
      rw [List.getElem_take] at hxi
      have hxn : x < T.length := by
        rw [← hxi]
        exact sa_mem_lt T _ (List.getElem_mem hilen)
      have hx0 : x ≠ 0 := by
        intro h0
        have hxi2 : (build_sa_naive T).getD i 0 = (build_sa_naive T).getD k 0 := by
          rw [List.getD_eq_getElem _ 0 hilen, hxi, h0, hj0]
        have := sa_getD_inj T i k hilen (by rw [sa_length]; exact hk) hxi2
        omega
      rw [bwtChar, if_neg hx0] at hxc
      have hstrict := hs.2 (x - 1) (by omega)
      omega
    rw [hC0, hocc0]
    constructor
    · omega
    · rw [sa_zero T hs]
      have he2 : (0 + T.length - 1) % T.length = T.length - 1 := by
        rw [Nat.zero_add]
        exact Nat.mod_eq_of_lt (by omega)
      rw [he2]
  · -- a regular row: LF k is the rank of suffix j - 1
    have hjj : (build_sa_naive T).getD k 0 - 1 < T.length := by omega
    have hcval : bwtChar T ((build_sa_naive T).getD k 0)
        = T.getD ((build_sa_naive T).getD k 0 - 1) 0 := by
      rw [bwtChar, if_neg hj0]
    have hc256 : T.getD ((build_sa_naive T).getD k 0 - 1) 0 < 256 := by
      have hmem : T.getD ((build_sa_naive T).getD k 0 - 1) 0 ∈ T := by
        rw [List.getD_eq_getElem _ 0 (by omega)]
        exact List.getElem_mem (by omega)
      exact hb _ hmem
    have hcsent : T.getD ((build_sa_naive T).getD k 0 - 1) 0 ≠ sentinelByte T := by
      have := hs.2 ((build_sa_naive T).getD k 0 - 1) (by omega)
      omega
    have hkrank : k = ltCnt T (T.drop ((build_sa_naive T).getD k 0)) := by
      have h := (sa_rank_getD T ((build_sa_naive T).getD k 0) hj).2
      -- both k and the rank index the same (unique) value in the nodup list
      have hk2 : k < (build_sa_naive T).length := by
        rw [sa_length]
        exact hk
      have hr2 : ltCnt T (T.drop ((build_sa_naive T).getD k 0)) < (build_sa_naive T).length := by
        rw [sa_length]
        exact (sa_rank_getD T ((build_sa_naive T).getD k 0) hj).1
      exact (sa_getD_inj T _ k hr2 hk2 h).symm
    have hdrop : T.drop ((build_sa_naive T).getD k 0 - 1)
        = T.getD ((build_sa_naive T).getD k 0 - 1) 0
          :: T.drop ((build_sa_naive T).getD k 0) := by
      rw [drop_cons_getD T ((build_sa_naive T).getD k 0 - 1) (by omega)]
      congr 2
      omega
    have hstep := step_lt T d hb hs h32 _ hc256 hcsent
      (T.drop ((build_sa_naive T).getD k 0))
    rw [← hkrank, ← hdrop] at hstep
    rw [hcval, hstep]
    have hr := sa_rank_getD T ((build_sa_naive T).getD k 0 - 1) hjj
    constructor
    · exact hr.1
    · rw [hr.2]
      have he3 : ((build_sa_naive T).getD k 0 + T.length - 1) % T.length
          = (build_sa_naive T).getD k 0 - 1 := by
        have h4 : (build_sa_naive T).getD k 0 + T.length - 1
            = ((build_sa_naive T).getD k 0 - 1) + T.length := by omega
        rw [h4, Nat.add_mod_right, Nat.mod_eq_of_lt (by omega)]
      rw [he3]

/-! #### The LF walk of locate -/

/-- `t`-fold application of the LF map, in walk order. -/
def LFiter (idx : FMIndex) : Nat → Nat → Nat
  | 0, pos => pos
  | t + 1, pos => LFiter idx t (idx.LF pos)

theorem mod_lin (n j t : Nat) (hn : 0 < n) (hj : j < n) (ht : t < n) :
    (j + (n - 1) * t) % n = if t ≤ j then j - t else j + n - t := by
  have hsub : (n - 1) * t + t = n * t := by
    have h0 : (n - 1) + 1 = n := by omega
    conv_rhs => rw [← h0]
    rw [Nat.add_mul, Nat.one_mul]
  have hc : t * n = n * t := Nat.mul_comm t n
  by_cases h : t ≤ j
  · rw [if_pos h]
    have he : j + (n - 1) * t = (j - t) + t * n := by omega
    rw [he, Nat.add_mul_mod_self_right, Nat.mod_eq_of_lt (by omega)]
  · rw [if_neg h]
    have hA : (t - 1) * n + n = t * n := by
      have h3 : (t - 1) + 1 = t := by omega
      conv_rhs => rw [← h3]
      rw [Nat.add_mul, Nat.one_mul]
    have he : j + (n - 1) * t = (j + n - t) + (t - 1) * n := by omega
    rw [he, Nat.add_mul_mod_self_right, Nat.mod_eq_of_lt (by omega)]

theorem LFiter_sa (T : List Nat) (d : Nat) (hb : ∀ x ∈ T, x < 256) (hs : SentinelOk T)
    (h32 : T.length < 2 ^ 32) :
    ∀ (t pos : Nat), pos < T.length →
      LFiter (FMIndex.build_from_text T d) t pos < T.length ∧
      (build_sa_naive T).getD (LFiter (FMIndex.build_from_text T d) t pos) 0
        = ((build_sa_naive T).getD pos 0 + (T.length - 1) * t) % T.length := by
  intro t
  induction t with
  | zero =>
      intro pos hpos
      refine ⟨hpos, ?_⟩
      show (build_sa_naive T).getD pos 0 = _
      rw [Nat.mul_zero, Nat.add_zero, Nat.mod_eq_of_lt (sa_getD_lt T pos hpos)]
  | succ t ih =>
      intro pos hpos
      have hLF := LF_sa T d hb hs h32 pos hpos
      obtain ⟨ih1, ih2⟩ := ih ((FMIndex.build_from_text T d).LF pos) hLF.1
      refine ⟨ih1, ?_⟩
      show (build_sa_naive T).getD
        (LFiter (FMIndex.build_from_text T d) t ((FMIndex.build_from_text T d).LF pos)) 0 = _
      rw [ih2, hLF.2]
      have hadd : (build_sa_naive T).getD pos 0 + T.length - 1
          = (build_sa_naive T).getD pos 0 + (T.length - 1) := by
        have := List.length_pos.mpr hs.1
        omega
      rw [hadd, Nat.mod_add_mod]
      congr 1
      rw [Nat.mul_succ]
      omega

theorem lfWalk_reaches (idx : FMIndex) :
    ∀ (t pos steps : Nat), steps + t < idx.n →
      (LFiter idx t pos) % idx.ssaStride = 0 →
      (idx.lfWalk pos steps).2 < idx.n ∧
      (idx.lfWalk pos steps).1 % idx.ssaStride = 0 ∧
      ∃ u : Nat, u ≤ t ∧ (idx.lfWalk pos steps).1 = LFiter idx u pos ∧
        (idx.lfWalk pos steps).2 = steps + u := by
  intro t
  induction t with
  | zero =>
      intro pos steps hst hgood
      have hg : pos % idx.ssaStride = 0 := hgood
      rw [FMIndex.lfWalk, dif_neg (fun hcon => hcon.1 hg)]
      exact ⟨by omega, hg, 0, Nat.le_refl 0, rfl, by omega⟩
  | succ t iht =>
      intro pos steps hst hgood
      by_cases h0 : pos % idx.ssaStride = 0
      · rw [FMIndex.lfWalk, dif_neg (fun hcon => hcon.1 h0)]
        exact ⟨by omega, h0, 0, by omega, rfl, by omega⟩
      · rw [FMIndex.lfWalk, dif_pos ⟨h0, by omega⟩]
        have hgood2 : (LFiter idx t (idx.LF pos)) % idx.ssaStride = 0 := hgood
        obtain ⟨h1, h2, u, hu, h3, h4⟩ := iht (idx.LF pos) (steps + 1) (by omega) hgood2
        refine ⟨h1, h2, u + 1, by omega, ?_, by omega⟩
        rw [h3]
        rfl

theorem locateOne_eq (T : List Nat) (d : Nat) (hb : ∀ x ∈ T, x < 256) (hs : SentinelOk T)
    (h32 : T.length < 2 ^ 32) (hd : 0 < d) (k : Nat) (hk : k < T.length) :
    (FMIndex.build_from_text T d).locateOne k = some ((build_sa_naive T).getD k 0) := by
  have hT : T ≠ [] := hs.1
  have hn : 0 < T.length := List.length_pos.mpr hT
  have hnn : (FMIndex.build_from_text T d).n = T.length := rfl
  have hdd : (FMIndex.build_from_text T d).ssaStride = d := rfl
  have hj : (build_sa_naive T).getD k 0 < T.length := sa_getD_lt T k hk
  -- the walk hits row 0 after (sa k + 1) % n steps
  have ht1 : ((build_sa_naive T).getD k 0 + 1) % T.length < T.length := Nat.mod_lt _ hn
  have hrow0 : (LFiter (FMIndex.build_from_text T d)
      (((build_sa_naive T).getD k 0 + 1) % T.length) k) = 0 := by
    obtain ⟨hlt, hval⟩ := LFiter_sa T d hb hs h32
      (((build_sa_naive T).getD k 0 + 1) % T.length) k hk
    rw [mod_lin T.length _ _ hn hj ht1] at hval
    have hval2 : (build_sa_naive T).getD (LFiter (FMIndex.build_from_text T d)
        (((build_sa_naive T).getD k 0 + 1) % T.length) k) 0 = T.length - 1 := by
      rw [hval]
      by_cases hcase : (build_sa_naive T).getD k 0 + 1 < T.length
      · rw [Nat.mod_eq_of_lt hcase, if_neg (by omega)]
        omega
      · have he : ((build_sa_naive T).getD k 0 + 1) % T.length = 0 := by
          have h5 : (build_sa_naive T).getD k 0 + 1 = T.length := by omega
          rw [h5, Nat.mod_self]
        rw [he, if_pos (by omega)]
        omega
    -- identify the row with row 0 via nodup
    have h0len : 0 < (build_sa_naive T).length := by
      rw [sa_length]
      omega
    have hrlen : (LFiter (FMIndex.build_from_text T d)
        (((build_sa_naive T).getD k 0 + 1) % T.length) k) < (build_sa_naive T).length := by
      rw [sa_length]
      exact hlt
    exact sa_getD_inj T _ 0 hrlen h0len (by rw [hval2, sa_zero T hs])
  have hgood : (LFiter (FMIndex.build_from_text T d)
      (((build_sa_naive T).getD k 0 + 1) % T.length) k)
        % (FMIndex.build_from_text T d).ssaStride = 0 := by
    rw [hrow0, Nat.zero_mod]
  obtain ⟨hsnd, hfmod, u, hu, hfst, hsnd2⟩ := lfWalk_reaches (FMIndex.build_from_text T d)
    (((build_sa_naive T).getD k 0 + 1) % T.length) k 0 (by rw [hnn]; omega) hgood
  obtain ⟨hflt, hfval⟩ := LFiter_sa T d hb hs h32 u k hk
  rw [← hfst] at hflt hfval
  rw [hnn] at hsnd
  rw [hdd] at hfmod
  -- sample-slot arithmetic
  have hlen2 : (FMIndex.build_from_text T d).ssaSamples.length = (T.length + d - 1) / d := by
    show ((List.range ((T.length + d - 1) / d)).map
      (fun m => (build_sa_naive T).getD (m * d) 0)).length = _
    rw [List.length_map, List.length_range]
  have hceil : (T.length + d - 1) / d = (T.length - 1) / d + 1 := by
    have h5 : T.length + d - 1 = (T.length - 1) + d := by omega
    rw [h5, Nat.add_div_right _ hd]
  have hdivlt : ((FMIndex.build_from_text T d).lfWalk k 0).1 / d < (T.length + d - 1) / d := by
    rw [hceil]
    have h6 : ((FMIndex.build_from_text T d).lfWalk k 0).1 ≤ T.length - 1 := by omega
    have h7 := Nat.div_le_div_right (c := d) h6
    omega
  have hsample : (FMIndex.build_from_text T d).ssaSamples.getD
      (((FMIndex.build_from_text T d).lfWalk k 0).1 / d) 0
      = (build_sa_naive T).getD
          ((((FMIndex.build_from_text T d).lfWalk k 0).1 / d) * d) 0 := by
    show ((List.range ((T.length + d - 1) / d)).map
      (fun m => (build_sa_naive T).getD (m * d) 0)).getD _ 0 = _
    rw [List.getD_eq_getElem _ 0 (by rw [List.length_map, List.length_range]; exact hdivlt),
      List.getElem_map, List.getElem_range]
  have hslot : (((FMIndex.build_from_text T d).lfWalk k 0).1 / d) * d
      = ((FMIndex.build_from_text T d).lfWalk k 0).1 := by
    rw [Nat.div_mul_cancel (Nat.dvd_of_mod_eq_zero hfmod)]
  rw [FMIndex.locateOne, if_neg (by rw [hnn]; omega), if_neg (by rw [hlen2, hdd]; omega)]
  rw [hdd, hsample, hslot, hfval, hnn]
  congr 1
  -- ((sa k + (n-1)*u) % n + u) % n = sa k
  rw [Nat.mod_add_mod, hsnd2, Nat.zero_add]
  have hmul : (T.length - 1) * u + u = T.length * u := by
    have h8 : T.length = (T.length - 1) + 1 := by omega
    conv_rhs => rw [h8]
    rw [Nat.add_mul, Nat.one_mul]
  have h9 : (build_sa_naive T).getD k 0 + (T.length - 1) * u + u
      = (build_sa_naive T).getD k 0 + u * T.length := by
    rw [Nat.mul_comm u T.length, ← hmul]
    omega
  rw [h9, Nat.add_mul_mod_self_right, Nat.mod_eq_of_lt hj]

/-! #### locate -/

theorem foldl_bind_map (L : List Nat) (g : Nat → Option Nat) (h : Nat → Nat)
    (hg : ∀ i ∈ L, g i = some (h i)) :
    ∀ l0 : List Nat,
      L.foldl (fun acc i => acc.bind (fun l => (g i).map (fun q => l ++ [q]))) (some l0)
        = some (l0 ++ L.map h) := by
  induction L with
  | nil =>
      intro l0
      simp
  | cons x xs ih =>
      intro l0
      rw [List.foldl_cons]
      have hx := hg x (List.mem_cons_self x xs)
      have hstep : (some l0).bind (fun l => (g x).map (fun q => l ++ [q]))
          = some (l0 ++ [h x]) := by
        rw [hx]
        rfl
      rw [hstep, ih (fun i hi => hg i (List.mem_cons_of_mem x hi)) (l0 ++ [h x])]
      simp

theorem locate_perm (T : List Nat) (d : Nat) (hb : ∀ x ∈ T, x < 256) (hs : SentinelOk T)
    (h32 : T.length < 2 ^ 32) (hd : 0 < d) (p : List Nat) (hp : p ≠ [])
    (hpc : ∀ c ∈ p, c < 256 ∧ c ≠ sentinelByte T)
    (limit : Nat) (hlim : naiveCount T p ≤ limit) :
    ∃ l : List Nat, (FMIndex.build_from_text T d).locate p limit = some l
      ∧ l.Perm (naivePositions T p) := by
  have hT : T ≠ [] := hs.1
  have hn0 : T.length ≠ 0 := by
    have := List.length_pos.mpr hT
    omega
  rw [FMIndex.locate, if_neg (fun hcon => by
    rcases hcon with h | h
    · exact hp h
    · exact hn0 h)]
  rw [searchRange_eq T d hb hs h32 p hpc]
  by_cases hz : naiveCount T p = 0
  · rw [if_pos ⟨hp, hz⟩]
    refine ⟨[], rfl, ?_⟩
    have hnil : naivePositions T p = [] := by
      rw [naivePositions, List.filter_eq_nil_iff]
      simp only [naiveCount, List.countP_eq_zero] at hz
      exact hz
    rw [hnil]
  · rw [if_neg (fun hcon => hz hcon.2)]
    -- shared facts about the occurrence interval
    have hdisj2 : ∀ j ∈ build_sa_naive T,
        ¬(lexLt (T.drop j) p = true ∧ startsB p (T.drop j) = true) := by
      intro j hj hcon
      have h2 := startsB_not_lexLt hcon.2
      rw [hcon.1] at h2
      exact absurd h2 (by simp)
    have hcntlt : (build_sa_naive T).countP (fun j => lexLt (T.drop j) p) = ltCnt T p := by
      rw [sa_countP]
      rfl
    have hcntboth : (build_sa_naive T).countP
        (fun j => lexLt (T.drop j) p || startsB p (T.drop j))
        = ltCnt T p + naiveCount T p := by
      rw [countP_or_disjoint _ _ _ hdisj2, sa_countP, sa_countP]
      rfl
    have hsumle : ltCnt T p + naiveCount T p ≤ T.length := by
      have h1 : (build_sa_naive T).countP
          (fun j => lexLt (T.drop j) p || startsB p (T.drop j))
          ≤ (build_sa_naive T).length := List.countP_le_length _
      rw [sa_length, hcntboth] at h1
      exact h1
    have hfboth : (build_sa_naive T).take (ltCnt T p + naiveCount T p)
        = (build_sa_naive T).filter
            (fun j => lexLt (T.drop j) p || startsB p (T.drop j)) := by
      rw [← hcntboth]
      apply sa_take_filter
      intro a b hab hb2
      rw [Bool.or_eq_true] at hb2 ⊢
      rcases hb2 with h | h
      · left
        exact lexLt_trans hab h
      · rcases lexLt_between hab h with h2 | h2
        · left
          exact h2
        · right
          exact h2
    have hflt : (build_sa_naive T).take (ltCnt T p)
        = (build_sa_naive T).filter (fun j => lexLt (T.drop j) p) := by
      rw [← hcntlt]
      apply sa_take_filter
      intro a b hab hb2
      exact lexLt_trans hab hb2
    have hsegeq : ((build_sa_naive T).drop (ltCnt T p)).take (naiveCount T p)
        = ((build_sa_naive T).take (ltCnt T p + naiveCount T p)).drop (ltCnt T p) := by
      rw [List.drop_take]
      congr 1
      omega
    have hprefix2 : ((build_sa_naive T).take (ltCnt T p + naiveCount T p)).take (ltCnt T p)
        = (build_sa_naive T).filter (fun j => lexLt (T.drop j) p) := by
      rw [List.take_take, min_eq_left (by omega)]
      exact hflt
    have hsplitf : (build_sa_naive T).filter (fun j => lexLt (T.drop j) p)
        ++ ((build_sa_naive T).take (ltCnt T p + naiveCount T p)).drop (ltCnt T p)
        = (build_sa_naive T).take (ltCnt T p + naiveCount T p) := by
      conv_rhs => rw [← List.take_append_drop (ltCnt T p)
        ((build_sa_naive T).take (ltCnt T p + naiveCount T p))]
      rw [hprefix2]
    have hpermBoth : ((build_sa_naive T).take (ltCnt T p + naiveCount T p)).Perm
        ((build_sa_naive T).filter (fun j => lexLt (T.drop j) p)
          ++ (build_sa_naive T).filter (fun j => startsB p (T.drop j))) := by
      rw [hfboth]
      exact filter_or_perm_append _ _ _ hdisj2
    have hsegperm :
        (((build_sa_naive T).take (ltCnt T p + naiveCount T p)).drop (ltCnt T p)).Perm
          ((build_sa_naive T).filter (fun j => startsB p (T.drop j))) := by
      apply (List.perm_append_left_iff
        ((build_sa_naive T).filter (fun j => lexLt (T.drop j) p))).mp
      rw [hsplitf]
      exact hpermBoth
    have hnaive : ((build_sa_naive T).filter (fun j => startsB p (T.drop j))).Perm
        (naivePositions T p) := (sa_perm T).filter (fun j => startsB p (T.drop j))
    have hg : ∀ i ∈ List.range' (ltCnt T p) (naiveCount T p),
        (FMIndex.build_from_text T d).locateOne i
          = some ((build_sa_naive T).getD i 0) := by
      intro i hi
      obtain ⟨off, hofflt, hoff⟩ := List.mem_range'.mp hi
      exact locateOne_eq T d hb hs h32 hd i (by omega)
    refine ⟨(List.range' (ltCnt T p) (naiveCount T p)).map
      (fun k => (build_sa_naive T).getD k 0), ?_, ?_⟩
    · show ((List.range' (ltCnt T p) (ltCnt T p + naiveCount T p - ltCnt T p)).take
          limit).foldl
          (fun acc i => acc.bind (fun l =>
            ((FMIndex.build_from_text T d).locateOne i).map (fun q => l ++ [q])))
          (some [])
        = some ((List.range' (ltCnt T p) (naiveCount T p)).map
            (fun k => (build_sa_naive T).getD k 0))
      have harg : ltCnt T p + naiveCount T p - ltCnt T p = naiveCount T p := by omega
      rw [harg, List.take_of_length_le (by rw [List.length_range']; exact hlim)]
      rw [foldl_bind_map _ _ _ hg []]
      rw [List.nil_append]
    · rw [range'_map_getD (build_sa_naive T) (ltCnt T p) (naiveCount T p)
        (by rw [sa_length]; omega)]
      rw [hsegeq]
      exact hsegperm.trans hnaive

/-! #### Totality of the LF walk -/

theorem lfWalk_total (T : List Nat) (d : Nat) (hb : ∀ x ∈ T, x < 256) (hs : SentinelOk T)
    (h32 : T.length < 2 ^ 32) (hd : 0 < d) (k : Nat) (hk : k < T.length) :
    ((FMIndex.build_from_text T d).lfWalk k 0).2 < T.length ∧
    ((FMIndex.build_from_text T d).lfWalk k 0).1 % d = 0 := by
  have hT : T ≠ [] := hs.1
  have hn : 0 < T.length := List.length_pos.mpr hT
  have hnn : (FMIndex.build_from_text T d).n = T.length := rfl
  have hdd : (FMIndex.build_from_text T d).ssaStride = d := rfl
  have hj : (build_sa_naive T).getD k 0 < T.length := sa_getD_lt T k hk
  have ht1 : ((build_sa_naive T).getD k 0 + 1) % T.length < T.length := Nat.mod_lt _ hn
  have hrow0 : (LFiter (FMIndex.build_from_text T d)
      (((build_sa_naive T).getD k 0 + 1) % T.length) k) = 0 := by
    obtain ⟨hlt, hval⟩ := LFiter_sa T d hb hs h32
      (((build_sa_naive T).getD k 0 + 1) % T.length) k hk
    rw [mod_lin T.length _ _ hn hj ht1] at hval
    have hval2 : (build_sa_naive T).getD (LFiter (FMIndex.build_from_text T d)
        (((build_sa_naive T).getD k 0 + 1) % T.length) k) 0 = T.length - 1 := by
      rw [hval]
      by_cases hcase : (build_sa_naive T).getD k 0 + 1 < T.length
      · rw [Nat.mod_eq_of_lt hcase, if_neg (by omega)]
        omega
      · have he : ((build_sa_naive T).getD k 0 + 1) % T.length = 0 := by
          have h5 : (build_sa_naive T).getD k 0 + 1 = T.length := by omega
          rw [h5, Nat.mod_self]
        rw [he, if_pos (by omega)]
        omega
    have h0len : 0 < (build_sa_naive T).length := by
      rw [sa_length]
      omega
    have hrlen : (LFiter (FMIndex.build_from_text T d)
        (((build_sa_naive T).getD k 0 + 1) % T.length) k) < (build_sa_naive T).length := by
      rw [sa_length]
      exact hlt
    exact sa_getD_inj T _ 0 hrlen h0len (by rw [hval2, sa_zero T hs])
  have hgood : (LFiter (FMIndex.build_from_text T d)
      (((build_sa_naive T).getD k 0 + 1) % T.length) k)
        % (FMIndex.build_from_text T d).ssaStride = 0 := by
    rw [hrow0, Nat.zero_mod]
  obtain ⟨hsnd, hfmod, _, _, _, _⟩ := lfWalk_reaches (FMIndex.build_from_text T d)
    (((build_sa_naive T).getD k 0 + 1) % T.length) k 0 (by rw [hnn]; omega) hgood
  rw [hnn] at hsnd
  rw [hdd] at hfmod
  exact ⟨hsnd, hfmod⟩

/-- Establishing `SentinelOk` from a decidable bounded check. -/
theorem sentinelOk_of (T : List Nat) (h1 : T ≠ [])
    (h2 : ∀ j < T.length - 1, sentinelByte T < T.getD j 0) : SentinelOk T :=
  ⟨h1, fun j hj => h2 j (by omega)⟩

/-! #### List-update helpers for the layout embedding -/

theorem getD_set (l : List Nat) (j i v : Nat) :
    (l.set j v).getD i 0 = if j = i ∧ j < l.length then v else l.getD i 0 := by
  by_cases hj : j = i ∧ j < l.length
  · obtain ⟨rfl, hlt⟩ := hj
    rw [if_pos ⟨rfl, hlt⟩,
      List.getD_eq_getElem _ 0 (by rw [List.length_set]; exact hlt)]
    exact List.getElem_set_self (by rw [List.length_set]; exact hlt)
  · rw [if_neg hj]
    by_cases hji : j = i
    · have hge : l.length ≤ j := by
        rcases Nat.lt_or_ge j l.length with h | h
        · exact absurd ⟨hji, h⟩ hj
        · exact h
      rw [List.set_eq_of_length_le hge]
    · by_cases hi : i < l.length
      · rw [List.getD_eq_getElem _ 0 (by rw [List.length_set]; exact hi),
          List.getD_eq_getElem _ 0 hi]
        exact List.getElem_set_ne hji _
      · rw [List.getD_eq_default _ _ (by rw [List.length_set]; omega),
          List.getD_eq_default _ _ (by omega)]

theorem getD_replicate_zero (n i : Nat) : (List.replicate n 0).getD i 0 = 0 := by
  by_cases h : i < n
  · rw [List.getD_eq_getElem _ 0 (by simpa using h)]
    exact List.getElem_replicate 0 _
  · rw [List.getD_eq_default _ _ (by simpa using h)]

/-! ### VebLayout (`veb.hpp`) -/

/-- Little-endian byte encoding of `v` on `k` bytes, as `reinterpret_cast`
exposes an integer's memory on x64. -/
def leBytes (k v : Nat) : List Nat :=
  (List.range k).map (fun i => v / 256 ^ i % 256)

/-- `VebLayout::serialize_bitvector`:
`[nbits (8 bytes)] [words (8 bytes each)] [super (4 bytes each)]
[sub (2 bytes each)]`. -/
def serialize_bitvector (bv : BitVector) : List Nat :=
  leBytes 8 bv.nbits ++ bv.bits.flatMap (leBytes 8)
    ++ bv.super.flatMap (leBytes 4) ++ bv.blocks.flatMap (leBytes 2)

/-- The `pad to 4KB boundary` blocks of `VebLayout::build`. -/
def padTo4096 (l : List Nat) : List Nat :=
  if l.length % 4096 = 0 then l else l ++ List.replicate (4096 - l.length % 4096) 0

/-- `VebLayout::compute_veb_order`: the top-half indices then the bottom-half
indices (the identity permutation of `0..numBottom-1`). -/
def compute_veb_order (numBottom : Nat) : List Nat :=
  if numBottom = 0 then []
  else if numBottom = 1 then [0]
  else List.range (numBottom / 2)
    ++ List.range' (numBottom / 2) (numBottom - numBottom / 2)

structure VebLayout where
  packed : List Nat
  level_offsets : List Nat
  num_levels : Nat
  top_k : Nat

/-- `VebLayout::build`: serialize the first `top_k` levels inline (recording
each offset before serializing), then every bottom level in vEB order with
the cursor padded to 4 KiB first, then pad the final buffer to 4 KiB. -/
def VebLayout.build (levels : List BitVector) (topK : Nat) : VebLayout :=
  let numLevels := levels.length
  let tk := min topK numLevels
  let st1 := (List.range tk).foldl
    (fun (st : List Nat × List Nat) i =>
      (st.1 ++ serialize_bitvector (levels.getD i ⟨0, [], [], []⟩),
        st.2.set i st.1.length))
    ([], List.replicate numLevels 0)
  let st2 := (compute_veb_order (numLevels - tk)).foldl
    (fun (st : List Nat × List Nat) idx =>
      ((padTo4096 st.1) ++ serialize_bitvector (levels.getD (tk + idx) ⟨0, [], [], []⟩),
        st.2.set (tk + idx) (padTo4096 st.1).length))
    st1
  { packed := padTo4096 st2.1
  , level_offsets := st2.2
  , num_levels := numLevels
  , top_k := tk }

/-- `VebLayout::get_level_offset`. -/
def VebLayout.get_level_offset (v : VebLayout) (level : Nat) : Nat :=
  if level < v.level_offsets.length then v.level_offsets.getD level 0 else 0

theorem padTo4096_mod (l : List Nat) : (padTo4096 l).length % 4096 = 0 := by
  rw [padTo4096]
  by_cases h : l.length % 4096 = 0
  · rw [if_pos h]
    exact h
  · rw [if_neg h, List.length_append, List.length_replicate]
    omega

theorem veb_fold1_inv (levels : List BitVector) (tk : Nat) :
    ∀ (idxs : List Nat) (st : List Nat × List Nat),
      (∀ i ∈ idxs, i < tk) →
      (∀ lvl, tk ≤ lvl → st.2.getD lvl 0 % 4096 = 0) →
      ∀ lvl, tk ≤ lvl →
        ((idxs.foldl (fun st i =>
          (st.1 ++ serialize_bitvector (levels.getD i ⟨0, [], [], []⟩),
            st.2.set i st.1.length)) st).2).getD lvl 0 % 4096 = 0 := by
  intro idxs
  induction idxs with
  | nil =>
      intro st _ hst lvl hlvl
      exact hst lvl hlvl
  | cons x xs ih =>
      intro st hmem hst lvl hlvl
      rw [List.foldl_cons]
      exact ih _ (fun i hi => hmem i (List.mem_cons_of_mem x hi))
        (fun lvl2 hlvl2 => by
          show (st.2.set x st.1.length).getD lvl2 0 % 4096 = 0
          have hx := hmem x (List.mem_cons_self x xs)
          rw [getD_set, if_neg (fun hcon => absurd hcon.1 (by omega))]
          exact hst lvl2 hlvl2) lvl hlvl

theorem veb_fold2_inv (levels : List BitVector) (tk : Nat) :
    ∀ (idxs : List Nat) (st : List Nat × List Nat),
      (∀ lvl, tk ≤ lvl → st.2.getD lvl 0 % 4096 = 0) →
      ∀ lvl, tk ≤ lvl →
        ((idxs.foldl (fun st idx =>
          ((padTo4096 st.1) ++ serialize_bitvector (levels.getD (tk + idx) ⟨0, [], [], []⟩),
            st.2.set (tk + idx) (padTo4096 st.1).length)) st).2).getD lvl 0 % 4096 = 0 := by
  intro idxs
  induction idxs with
  | nil =>
      intro st hst lvl hlvl
      exact hst lvl hlvl
  | cons x xs ih =>
      intro st hst lvl hlvl
      rw [List.foldl_cons]
      exact ih _ (fun lvl2 hlvl2 => by
        show (st.2.set (tk + x) (padTo4096 st.1).length).getD lvl2 0 % 4096 = 0
        rw [getD_set]
        by_cases hcon : tk + x = lvl2 ∧ tk + x < st.2.length
        · rw [if_pos hcon]
          exact padTo4096_mod st.1
        · rw [if_neg hcon]
          exact hst lvl2 hlvl2) lvl hlvl

/-! ### IndexWriter (`serialization.cpp`) -/

/-- The writer's observable state: the running file offset and the bytes
written after the 88-byte header block reserved at construction. -/
structure IndexWriter where
  currentOffset : Nat
  bytes : List Nat
  footerOffset : Nat

/-- A fresh `IndexWriter`: the cursor starts at `sizeof(IndexHeader) = 88`. -/
def IndexWriter.init : IndexWriter :=
  { currentOffset := 88, bytes := [], footerOffset := 0 }

/-- `IndexWriter::write_raw`: append the bytes and advance the cursor. -/
def IndexWriter.write_raw (w : IndexWriter) (data : List Nat) : IndexWriter :=
  { w with currentOffset := w.currentOffset + data.length, bytes := w.bytes ++ data }

/-- `IndexWriter::align_to`.  When the cursor is unaligned, the C++ padding
loop `for (size_t written = 0; written < padding; )` never increments
`written`, so it never terminates; that divergence is modelled as `none`
(with an aligned cursor the loop body is never entered and the writer is
unchanged). -/
def IndexWriter.align_to (w : IndexWriter) (alignment : Nat) : Option IndexWriter :=
  if w.currentOffset % alignment = 0 then some w else none

/-- The footer word `IndexWriter::finalize` writes:
`0x444E4553435300ULL` (its comment reads `CSEND\0\0\0`). -/
def footer_magic : Nat := 0x444E4553435300

/-- `IndexWriter::finalize`: align to 8, record the footer offset in the
header, write the footer word (little-endian, as x64 memory order). -/
def IndexWriter.finalize (w : IndexWriter) : Option IndexWriter :=
  (w.align_to 8).map (fun w2 =>
    IndexWriter.write_raw { w2 with footerOffset := w2.currentOffset }
      (leBytes 8 footer_magic))

/-! ### The claims -/

/-- C1 (corrected): for a text ending in a unique minimal sentinel and a
non-empty pattern whose bytes avoid the sentinel byte, `count` returns the
naive substring count and `locate` (with a sufficient limit) returns exactly
the naive starting positions, in some order.  The original claim, which does
not restrict the pattern, is refuted by the counterexample: a pattern
containing the sentinel can be counted as a spurious rotation match. -/
theorem claim_C1 (T : List Nat) (d : Nat) (hb : ∀ x ∈ T, x < 256) (hs : SentinelOk T)
    (h32 : T.length < 2 ^ 32) (hd : 0 < d) (p : List Nat) (hp : p ≠ [])
    (hpc : ∀ c ∈ p, c < 256 ∧ c ≠ sentinelByte T)
    (limit : Nat) (hlim : naiveCount T p ≤ limit) :
    (FMIndex.build_from_text T d).count p = naiveCount T p ∧
    ∃ l, (FMIndex.build_from_text T d).locate p limit = some l
      ∧ l.Perm (naivePositions T p) :=
  ⟨count_eq_naive T d hb hs h32 p hp hpc,
    locate_perm T d hb hs h32 hd p hp hpc limit hlim⟩

/-- On `T = "ab$"` the pattern `"$a"` never occurs, yet `count` reports one
match (the backward search wraps around the rotation boundary). -/
theorem claim_C1_counterexample :
    (FMIndex.build_from_text [97, 98, 36] 1).count [36, 97] = 1
      ∧ naiveCount [97, 98, 36] [36, 97] = 0 := by
  constructor <;> decide

/-- C1 at `T = "banana$"`, `p = "an"`, `d = 2`, `limit = 5`. -/
theorem claim_C1_witness :
    ((∀ x ∈ [98, 97, 110, 97, 110, 97, 36], x < 256)
      ∧ SentinelOk [98, 97, 110, 97, 110, 97, 36]
      ∧ ([98, 97, 110, 97, 110, 97, 36] : List Nat).length < 2 ^ 32
      ∧ 0 < 2
      ∧ ([97, 110] : List Nat) ≠ []
      ∧ (∀ c ∈ [97, 110], c < 256 ∧ c ≠ sentinelByte [98, 97, 110, 97, 110, 97, 36])
      ∧ naiveCount [98, 97, 110, 97, 110, 97, 36] [97, 110] ≤ 5)
    ∧ ((FMIndex.build_from_text [98, 97, 110, 97, 110, 97, 36] 2).count [97, 110]
        = naiveCount [98, 97, 110, 97, 110, 97, 36] [97, 110]
      ∧ ∃ l, (FMIndex.build_from_text [98, 97, 110, 97, 110, 97, 36] 2).locate [97, 110] 5
          = some l ∧ l.Perm (naivePositions [98, 97, 110, 97, 110, 97, 36] [97, 110])) :=
  ⟨⟨by decide, sentinelOk_of _ (by decide) (by decide), by norm_num, by decide,
      by decide, by decide, by decide⟩,
    claim_C1 _ 2 (by decide) (sentinelOk_of _ (by decide) (by decide)) (by norm_num)
      (by decide) _ (by decide) (by decide) 5 (by decide)⟩

/-- C2 (corrected): a learned bitvector and a classic bitvector built from
the same bits agree on `rank1` at every index — including 0 and past the
end — whenever the micro stride is positive and divides the positive coarse
stride, the bit count is below `2^31`, and every stored micro-residual (the
rank at the micro-block start minus the prediction at its coarse block) fits
in `int32`.  Without the fit condition the `int32_t` residual store wraps
and the two structures diverge (`claim_C2_counterexample`). -/
theorem claim_C2 (bitsIn : List Bool) (S s : Nat) (pf : Nat → Int)
    (hsp : 0 < s) (hSp : 0 < S) (hdvd : S % s = 0) (h31 : bitsIn.length < 2 ^ 31)
    (hfit : ∀ t, t < ((bitsIn.length + S - 1) / S) * (S / s) →
      (t / (S / s)) * S + (t % (S / s)) * s < bitsIn.length →
      -(2 : Int) ^ 31
          ≤ (naiveRank bitsIn ((t / (S / s)) * S + (t % (S / s)) * s) : Int)
            - pf ((t / (S / s)) * S) ∧
        (naiveRank bitsIn ((t / (S / s)) * S + (t % (S / s)) * s) : Int)
            - pf ((t / (S / s)) * S) < 2 ^ 31)
    (i : Nat) :
    (BitvectorLearned.build bitsIn S s pf).rank1 i = (BitVector.build bitsIn).rank1 i := by
  rw [learned_rank1_eq bitsIn S s pf hsp hSp hdvd h31 hfit i,
    build_rank1_eq bitsIn (by omega) i]

/-- On two set bits with `S = s = 64` and the (valid `int32`) prediction
`-2^31` at coarse position 0, the stored residual `0 - (-2^31) = 2^31` wraps
to `-2^31` in the `int32_t` store, and the learned `rank1 1` is clamped to 0
while the classic bitvector answers 1. -/
theorem claim_C2_counterexample :
    (BitvectorLearned.build [true, true] 64 64 (fun _ => -(2 : Int) ^ 31)).rank1 1 = 0
      ∧ (BitVector.build [true, true]).rank1 1 = 1 := by
  constructor <;> decide

/-- C2 at a 5-bit vector with `S = 4`, `s = 2`, the zero prediction, `i = 3`. -/
theorem claim_C2_witness :
    (0 < 2 ∧ 0 < 4 ∧ 4 % 2 = 0
      ∧ ([true, false, true, true, false] : List Bool).length < 2 ^ 31
      ∧ (∀ t, t < ((([true, false, true, true, false] : List Bool).length + 4 - 1) / 4)
            * (4 / 2) →
          (t / (4 / 2)) * 4 + (t % (4 / 2)) * 2
              < ([true, false, true, true, false] : List Bool).length →
          -(2 : Int) ^ 31
              ≤ (naiveRank [true, false, true, true, false]
                  ((t / (4 / 2)) * 4 + (t % (4 / 2)) * 2) : Int)
                - (fun _ => (0 : Int)) ((t / (4 / 2)) * 4) ∧
            (naiveRank [true, false, true, true, false]
                  ((t / (4 / 2)) * 4 + (t % (4 / 2)) * 2) : Int)
                - (fun _ => (0 : Int)) ((t / (4 / 2)) * 4) < 2 ^ 31))
    ∧ (BitvectorLearned.build [true, false, true, true, false] 4 2 (fun _ => 0)).rank1 3
      = (BitVector.build [true, false, true, true, false]).rank1 3 :=
  ⟨⟨by decide, by decide, by decide, by norm_num, by decide⟩,
    claim_C2 _ 4 2 _ (by decide) (by decide) (by decide) (by norm_num) (by decide) 3⟩

/-- C3: `rank1 i` counts the one-bits below `i` (hence it is 0 at `i = 0`
and `count_ones` for `i` past the end), and `rank0 i + rank1 i` is
`min i nbits`. -/
theorem claim_C3 (bits : List Bool) (h32 : bits.length < 2 ^ 32) (i : Nat) :
    (BitVector.build bits).rank1 i = naiveRank bits i ∧
    (BitVector.build bits).rank0 i + (BitVector.build bits).rank1 i
      = min i bits.length := by
  have h1 := build_rank1_eq bits h32 i
  refine ⟨h1, ?_⟩
  have hnb : (BitVector.build bits).nbits = bits.length := rfl
  have hrk : ∀ x, naiveRank bits x ≤ min x bits.length := by
    intro x
    rw [naiveRank]
    have h : (bits.take x).countP (fun b => b) ≤ (bits.take x).length :=
      List.countP_le_length _
    rw [List.length_take] at h
    exact h
  rw [BitVector.rank0, hnb]
  by_cases hc : i > bits.length
  · rw [if_pos hc]
    have h2 := build_rank1_eq bits h32 bits.length
    have h3 : naiveRank bits bits.length = naiveRank bits i := by
      rw [naiveRank, naiveRank, List.take_length, List.take_of_length_le (by omega)]
    have h4 := hrk bits.length
    rw [min_self] at h4
    rw [h2, h1, ← h3, min_eq_right (by omega)]
    omega
  · rw [if_neg hc, h1]
    have h4 := hrk i
    rw [min_eq_left (by omega)] at h4 ⊢
    omega

/-- C3 at a 3-bit vector, `i = 2`. -/
theorem claim_C3_witness :
    (([true, false, true] : List Bool).length < 2 ^ 32)
    ∧ ((BitVector.build [true, false, true]).rank1 2 = naiveRank [true, false, true] 2
      ∧ (BitVector.build [true, false, true]).rank0 2
          + (BitVector.build [true, false, true]).rank1 2
        = min 2 ([true, false, true] : List Bool).length) :=
  ⟨by norm_num, claim_C3 _ (by norm_num) 2⟩

/-- C4 (corrected): from every BWT row `i < n` the LF walk of `locate`
stops at a row that is a multiple of the SSA stride after fewer than `n`
steps, so the fatal-error branch for exceeding `n` steps is unreachable.
The original claim's bound of at most `d` steps is false: the
counterexample walk needs 4 steps with stride `d = 3`. -/
theorem claim_C4 (T : List Nat) (d : Nat) (hb : ∀ x ∈ T, x < 256) (hs : SentinelOk T)
    (h32 : T.length < 2 ^ 32) (hd : 0 < d) (i : Nat) (hi : i < T.length) :
    ((FMIndex.build_from_text T d).lfWalk i 0).2 < T.length ∧
    ((FMIndex.build_from_text T d).lfWalk i 0).1 % d = 0 :=
  lfWalk_total T d hb hs h32 hd i hi

/-- On `T = "aabaa$"` with stride `d = 3`, no row reachable from row 1 in at
most 3 LF steps is a multiple of 3 (the walk needs 4 steps). -/
theorem claim_C4_counterexample :
    LFiter (FMIndex.build_from_text [97, 97, 98, 97, 97, 36] 3) 0 1 % 3 ≠ 0
    ∧ LFiter (FMIndex.build_from_text [97, 97, 98, 97, 97, 36] 3) 1 1 % 3 ≠ 0
    ∧ LFiter (FMIndex.build_from_text [97, 97, 98, 97, 97, 36] 3) 2 1 % 3 ≠ 0
    ∧ LFiter (FMIndex.build_from_text [97, 97, 98, 97, 97, 36] 3) 3 1 % 3 ≠ 0 := by
  refine ⟨?_, ?_, ?_, ?_⟩ <;> decide

/-- C4 at `T = "aabaa$"`, `d = 3`, row 1. -/
theorem claim_C4_witness :
    ((∀ x ∈ [97, 97, 98, 97, 97, 36], x < 256)
      ∧ SentinelOk [97, 97, 98, 97, 97, 36]
      ∧ ([97, 97, 98, 97, 97, 36] : List Nat).length < 2 ^ 32
      ∧ 0 < 3
      ∧ 1 < ([97, 97, 98, 97, 97, 36] : List Nat).length)
    ∧ (((FMIndex.build_from_text [97, 97, 98, 97, 97, 36] 3).lfWalk 1 0).2
        < ([97, 97, 98, 97, 97, 36] : List Nat).length
      ∧ ((FMIndex.build_from_text [97, 97, 98, 97, 97, 36] 3).lfWalk 1 0).1 % 3 = 0) :=
  ⟨⟨by decide, sentinelOk_of _ (by decide) (by decide), by norm_num, by decide, by decide⟩,
    claim_C4 _ 3 (by decide) (sentinelOk_of _ (by decide) (by decide)) (by norm_num)
      (by decide) 1 (by decide)⟩

/-- C5: the claim says an out-of-range rank index is clamped to `n` (so
`rank c i = rank c n` for `i > n`), but the early return
`if (i == 0 || i > n_) return 0;` in `WaveletTree::rank` makes the clamp on
the following line dead code: on the one-byte BWT `[97]`, `rank 97 1 = 1`
(the total count) while `rank 97 2 = 0`. -/
theorem claim_C5 :
    (WaveletTree.build [97]).rank 97 2 = 0 ∧ (WaveletTree.build [97]).rank 97 1 = 1 := by
  constructor <;> decide

/-- C6: counting the empty pattern returns `n`, and counting any pattern on
an index built from the empty text returns 0. -/
theorem claim_C6 (T : List Nat) (d d2 : Nat) (p : List Nat) :
    (FMIndex.build_from_text T d).count [] = T.length ∧
    (FMIndex.build_from_text [] d2).count p = 0 := by
  constructor
  · rw [FMIndex.count, if_pos rfl]
    rfl
  · rw [FMIndex.count]
    by_cases hp : p = []
    · rw [if_pos hp]
      rfl
    · rw [if_neg hp,
        if_pos (show (FMIndex.build_from_text ([] : List Nat) d2).n = 0 from rfl)]

/-- C7: the C-table of a built index has 257 entries, starts at 0, increases
by the BWT frequency of each byte, and ends at `n`. -/
theorem claim_C7 (T : List Nat) (d : Nat) (hb : ∀ x ∈ T, x < 256) (hT : T ≠ [])
    (h32 : T.length < 2 ^ 32) :
    (FMIndex.build_from_text T d).C.length = 257 ∧
    (FMIndex.build_from_text T d).C.getD 0 0 = 0 ∧
    (∀ c, c < 256 → (FMIndex.build_from_text T d).C.getD (c + 1) 0
      = (FMIndex.build_from_text T d).C.getD c 0
        + (FMIndex.build_from_text T d).bwt.count c) ∧
    (FMIndex.build_from_text T d).C.getD 256 0 = T.length := by
  refine ⟨?_, ?_, ?_, ?_⟩
  · have hC : (FMIndex.build_from_text T d).C = (List.range 257).map (fun c =>
        (((List.range c).map
          (fun b => (build_bwt_from_sa T (build_sa_naive T)).count b)).sum) % 2 ^ 32) := rfl
    rw [hC, List.length_map, List.length_range]
  · rw [C_getD T d h32 hT 0 (by omega), List.countP_eq_zero.mpr]
    intro x hx
    simp
  · intro c hc
    rw [C_getD T d h32 hT (c + 1) (by omega), C_getD T d h32 hT c (by omega),
      countP_lt_succ]
    have hbc : (FMIndex.build_from_text T d).bwt.count c = T.count c :=
      (bwt_perm T hT).count_eq c
    rw [hbc]
  · rw [C_getD T d h32 hT 256 (by omega), List.countP_eq_length.mpr]
    intro x hx
    simpa using hb x hx

/-- C7 at `T = "ab$"`. -/
theorem claim_C7_witness :
    ((∀ x ∈ [97, 98, 36], x < 256) ∧ ([97, 98, 36] : List Nat) ≠ []
      ∧ ([97, 98, 36] : List Nat).length < 2 ^ 32)
    ∧ ((FMIndex.build_from_text [97, 98, 36] 1).C.length = 257
      ∧ (FMIndex.build_from_text [97, 98, 36] 1).C.getD 0 0 = 0
      ∧ (∀ c, c < 256 → (FMIndex.build_from_text [97, 98, 36] 1).C.getD (c + 1) 0
          = (FMIndex.build_from_text [97, 98, 36] 1).C.getD c 0
            + (FMIndex.build_from_text [97, 98, 36] 1).bwt.count c)
      ∧ (FMIndex.build_from_text [97, 98, 36] 1).C.getD 256 0
          = ([97, 98, 36] : List Nat).length) :=
  ⟨⟨by decide, by decide, by norm_num⟩, claim_C7 _ 1 (by decide) (by decide) (by norm_num)⟩

/-- C8: after `VebLayout::build`, every level at index at least `top_k` has
an offset that is a multiple of 4096, and the packed buffer's size is a
multiple of 4096. -/
theorem claim_C8 (levels : List BitVector) (topK lvl : Nat)
    (hlvl : (VebLayout.build levels topK).top_k ≤ lvl) :
    (VebLayout.build levels topK).get_level_offset lvl % 4096 = 0 ∧
    (VebLayout.build levels topK).packed.length % 4096 = 0 := by
  constructor
  · rw [VebLayout.get_level_offset]
    by_cases h : lvl < (VebLayout.build levels topK).level_offsets.length
    · rw [if_pos h]
      have htk : (VebLayout.build levels topK).top_k = min topK levels.length := rfl
      rw [htk] at hlvl
      exact veb_fold2_inv levels (min topK levels.length)
        (compute_veb_order (levels.length - min topK levels.length)) _
        (fun lvl2 hlvl2 => veb_fold1_inv levels (min topK levels.length)
          (List.range (min topK levels.length)) ([], List.replicate levels.length 0)
          (fun i hi => List.mem_range.mp hi)
          (fun lvl3 _ => by
            show (List.replicate levels.length 0).getD lvl3 0 % 4096 = 0
            rw [getD_replicate_zero])
          lvl2 hlvl2)
        lvl hlvl
    · rw [if_neg h]
  · exact padTo4096_mod _

/-- C8 at two one-word levels with `top_k = 1`, bottom level 1. -/
theorem claim_C8_witness :
    (VebLayout.build [BitVector.build [true], BitVector.build [false, true]] 1).top_k ≤ 1
    ∧ ((VebLayout.build [BitVector.build [true],
          BitVector.build [false, true]] 1).get_level_offset 1 % 4096 = 0
      ∧ (VebLayout.build [BitVector.build [true],
          BitVector.build [false, true]] 1).packed.length % 4096 = 0) :=
  ⟨by decide, claim_C8 _ 1 1 (by decide)⟩

/-- C9 (corrected): when `finalize` terminates, the 8 bytes it writes at the
footer offset are the little-endian encoding of `0x444E4553435300` — not of
the spec's `0x0000435345444E44` (see the counterexample). -/
theorem claim_C9 (w w2 : IndexWriter) (hinv : w.currentOffset = 88 + w.bytes.length)
    (h : w.finalize = some w2) :
    w2.bytes.drop (w2.footerOffset - 88) = leBytes 8 0x444E4553435300 := by
  rw [IndexWriter.finalize, IndexWriter.align_to] at h
  by_cases ha : w.currentOffset % 8 = 0
  · rw [if_pos ha] at h
    have h2 : IndexWriter.write_raw { w with footerOffset := w.currentOffset }
        (leBytes 8 footer_magic) = w2 := Option.some.inj h
    rw [← h2]
    show (w.bytes ++ leBytes 8 footer_magic).drop (w.currentOffset - 88)
      = leBytes 8 0x444E4553435300
    rw [hinv]
    have h3 : 88 + w.bytes.length - 88 = w.bytes.length := by omega
    rw [h3, List.drop_left]
    rfl
  · rw [if_neg ha] at h
    exact absurd h (by simp)

/-- The footer bytes of a finalized fresh writer differ from the spec's
claimed footer word. -/
theorem claim_C9_counterexample :
    ∃ w2 : IndexWriter, IndexWriter.finalize IndexWriter.init = some w2 ∧
      w2.bytes.drop (w2.footerOffset - 88) ≠ leBytes 8 0x0000435345444E44 := by
  refine ⟨_, rfl, ?_⟩
  decide

/-- C9 at a fresh writer. -/
theorem claim_C9_witness :
    IndexWriter.init.currentOffset = 88 + IndexWriter.init.bytes.length
    ∧ (IndexWriter.write_raw { IndexWriter.init with footerOffset := 88 }
        (leBytes 8 footer_magic)).bytes.drop
        ((IndexWriter.write_raw { IndexWriter.init with footerOffset := 88 }
          (leBytes 8 footer_magic)).footerOffset - 88)
      = leBytes 8 0x444E4553435300 :=
  ⟨rfl, claim_C9 IndexWriter.init _ rfl rfl⟩

/-- C10: `locate` special-cases the empty pattern to an empty result for
every limit, while `count` of the empty pattern is `n`. -/
theorem claim_C10 (T : List Nat) (d limit : Nat) :
    (FMIndex.build_from_text T d).locate [] limit = some [] ∧
    (FMIndex.build_from_text T d).count [] = T.length := by
  constructor
  · rw [FMIndex.locate, if_pos (Or.inl rfl)]
  · rw [FMIndex.count, if_pos rfl]
    rfl

end CSpec
